import Mathlib

/-!
Verification of the deduplicating, name-addressable point registry
(`GeoLib::PointVec`, file `PointVec.cpp`).

Coordinates are modelled as exact rationals (the source uses `double`;
all comparisons in the source are exact comparisons of stored values, which
the rational model reproduces faithfully on representable inputs).

External repository primitives that are not part of the excerpt
(`MathLib::maxNormDist`, the lexicographic point order used by
`BaseLib::Quicksort`, the `TemplateVec` storage, the `AABB` box) are
modelled from the spec, as indicated on each definition.

The absolute tolerance: the source computes
`_rel_eps *= sqrt(MathLib::sqrDist(min, max))` once at construction and
uses only the resulting absolute threshold afterwards.  Since the square
root is irrational in general, the model is parametrized directly by the
resulting absolute tolerance `eps` (the field keeps the source's name
`rel_eps`, which in the source holds the absolute value after scaling).
-/

namespace OGS

/-- A 3D point with exact rational coordinates (models `GeoLib::Point`). -/
structure Point where
  x : ℚ
  y : ℚ
  z : ℚ
deriving DecidableEq

/-- Default point used for out-of-range reads in the list model. -/
def pz : Point := ⟨0, 0, 0⟩

/-- Subtraction on ℚ written out by the numerator/denominator formula, so
that concrete instances reduce inside the kernel (the library subtraction
is irreducible); `ratSub_eq_sub` identifies it with the ordinary
subtraction. -/
def ratSub (a b : ℚ) : ℚ :=
  mkRat (a.num * b.den - b.num * a.den) (a.den * b.den)

/-- Modelled from the spec: `MathLib::maxNormDist`, the greatest absolute
coordinate-wise difference between two points (L-infinity distance);
`maxNormDist_eq` restates it with ordinary subtraction. -/
def maxNormDist (p q : Point) : ℚ :=
  max |ratSub p.x q.x| (max |ratSub p.y q.y| |ratSub p.z q.z|)

/-- Modelled from the spec: the full lexicographic order (by x, then y,
then z) on point coordinates used as the comparison of the sort. -/
def lexLe (p q : Point) : Bool :=
  if p.x < q.x then true
  else if q.x < p.x then false
  else if p.y < q.y then true
  else if q.y < p.y then false
  else decide (p.z ≤ q.z)

/-- Ordering of (point, original index) pairs by the point component only;
this is the order `BaseLib::Quicksort(*pnt_vec, 0, n, perm)` sorts by while
carrying the permutation entries along. -/
def pairLe (a b : Point × ℕ) : Prop := lexLe a.1 b.1 = true

instance : DecidableRel pairLe :=
  fun a b => inferInstanceAs (Decidable (lexLe a.1 b.1 = true))

/-- Modelled from the spec: `BaseLib::Quicksort` on the point vector,
applying identical swaps to the permutation; the model sorts the zipped
(point, index) list by point order.  Any comparison sort yields the same
final registry because exact ties are re-ordered by the stabilization pass
(this is the point of the stabilization pass in the source). -/
def sortByPoint (l : List (Point × ℕ)) : List (Point × ℕ) :=
  List.insertionSort pairLe l

/-- The sorted (point, original index) sequence of the bulk input. -/
def sortedPairs (pnts : List Point) : List (Point × ℕ) :=
  sortByPoint (pnts.zip (List.range pnts.length))

/-- The point sequence after the first sort (`*pnt_vec` between lines
121 and 161 of the source). -/
def sortedVals (pnts : List Point) : List Point :=
  (sortedPairs pnts).map Prod.fst

/-- The permutation after the first sort (`perm` before stabilization). -/
def sortedPerm (pnts : List Point) : List ℕ :=
  (sortedPairs pnts).map Prod.snd

/-- Scan detecting the intervals of sorted-adjacent points within
tolerance (the flag loop at lines 126-143 of `makePntsUnique`); `k` is the
position of the head of the remaining list, `identical` the loop flag.
The flat output holds interval begin/end positions alternately. -/
def intervalScan (eps : ℚ) : List Point → ℕ → Bool → List ℕ
  | p :: q :: rest, k, identical =>
      if maxNormDist q p ≤ eps then
        (if identical then [] else [k]) ++ intervalScan eps (q :: rest) (k + 1) true
      else
        (if identical then [k + 1] else []) ++ intervalScan eps (q :: rest) (k + 1) false
  | [_], k, identical => if identical then [k + 1] else []
  | [], _, _ => []

/-- The flat `identical_pnts_interval` list of the source. -/
def intervals (sv : List Point) (eps : ℚ) : List ℕ :=
  intervalScan eps sv 0 false

/-- Consumes the flat interval list two entries at a time, as the loop at
line 145 reads `identical_pnts_interval[2i]` and `[2i+1]`. -/
def pairify : List ℕ → List (ℕ × ℕ)
  | b :: e :: rest => (b, e) :: pairify rest
  | _ => []

/-- Ascending reordering of the sub-range `[b, e)` of `l`; models the
complete bubble sort of `perm[beg..end)` at lines 149-152 (a full bubble
sort computes exactly the ascending reordering of the slice). -/
def sortSlice (l : List ℕ) (b e : ℕ) : List ℕ :=
  l.take b ++ List.insertionSort (· ≤ ·) ((l.drop b).take (e - b)) ++ l.drop e

/-- The stabilization pass: re-sorts the permutation inside every interval
of tolerance-identical points by ascending original index (lines 145-153). -/
def stabilize (ivs : List (ℕ × ℕ)) (perm : List ℕ) : List ℕ :=
  ivs.foldl (fun l be => sortSlice l be.1 be.2) perm

/-- The permutation after the stabilization pass. -/
def stabPerm (pnts : List Point) (eps : ℚ) : List ℕ :=
  stabilize (pairify (intervals (sortedVals pnts) eps)) (sortedPerm pnts)

/-- The collapse scan (lines 156-158): walking the sorted points, whenever
point `k+1` is within tolerance of point `k`, set
`pnt_id_map[perm[k+1]] := pnt_id_map[perm[k]]`. -/
def collapseScan (eps : ℚ) (sp : List ℕ) : List Point → ℕ → List ℕ → List ℕ
  | p :: q :: rest, k, idm =>
      collapseScan eps sp (q :: rest) (k + 1)
        (if maxNormDist q p ≤ eps then
          idm.set (sp.getD (k + 1) 0) (idm.getD (sp.getD k 0) 0)
        else idm)
  | _, _, idm => idm

/-- The `pnt_id_map` directly after the collapse scan, before removal and
renumbering (`pnt_id_map` as of line 158). -/
def collapsedMap (pnts : List Point) (eps : ℚ) : List ℕ :=
  collapseScan eps (stabPerm pnts eps) (sortedVals pnts) 0
    (List.range pnts.length)

/-- Ordering of (index, point) pairs by the index component; this is the
order of the reverse permutation sort `Quicksort(perm, 0, n, *pnt_vec)`. -/
def idxLe (a b : ℕ × Point) : Prop := a.1 ≤ b.1

instance : DecidableRel idxLe := fun a b => Nat.decLe a.1 b.1

/-- Modelled from the spec: the second `BaseLib::Quicksort` call (line
161) sorts the permutation back to the identity, applying the same swaps
to the point vector, i.e. it moves the point at sorted position `k` to
position `perm[k]`. -/
def sortByIdx (l : List (ℕ × Point)) : List (ℕ × Point) :=
  List.insertionSort idxLe l

/-- The point sequence after the reverse permutation (`*pnt_vec` after
line 161). -/
def restoredPnts (pnts : List Point) (eps : ℚ) : List Point :=
  (sortByIdx ((stabPerm pnts eps).zip (sortedVals pnts))).map Prod.snd

/-- Removal of the second, third, ... occurrences (lines 164-172): every
position `k` with `pnt_id_map[k] < k` is deleted and the vector compacted. -/
def removeDoubles (resto : List Point) (idm : List ℕ) : List Point :=
  (resto.enum.filter (fun e => ¬ idm.getD e.1 0 < e.1)).map Prod.snd

/-- Renumbering walk (lines 174-183) over the collapsed id map: surviving
slots (`pnt_id_map[k] == k`) receive sequential canonical ids; collapsed
slots resolve through the already renumbered entry they point to.  `acc`
is the already processed prefix of the array; a read below the write
position sees the updated value, a read at or above it the original one,
exactly as for the in-place array of the source. -/
def renumberAux (idm : List ℕ) : List ℕ → ℕ → ℕ → List ℕ → List ℕ
  | [], _, _, acc => acc
  | v :: rest, k, cnt, acc =>
      if v = k then renumberAux idm rest (k + 1) (cnt + 1) (acc ++ [cnt])
      else renumberAux idm rest (k + 1) cnt (acc ++ [acc.getD v (idm.getD v 0)])

/-- The renumbered `pnt_id_map`. -/
def renumber (idm : List ℕ) : List ℕ :=
  renumberAux idm idm 0 0 []

/-- `PointVec::makePntsUnique`: returns the deduplicated point sequence
and the original-index to canonical-id map. -/
def makePntsUnique (pnts : List Point) (eps : ℚ) : List Point × List ℕ :=
  let idm := collapsedMap pnts eps
  (removeDoubles (restoredPnts pnts eps) idm, renumber idm)

/-- The loop bound `n_pnts_in_file - 1` of the scan loops at lines 128 and
156, computed in `std::size_t` (64-bit unsigned) arithmetic as the source
does.  For `n = 0` this underflows to `2^64 - 1`; the list model above
uses truncated subtraction and therefore agrees with the source only for
`n >= 1`. -/
def scanPairBound (n : ℕ) : ℕ := (n + (2 ^ 64 - 1)) % 2 ^ 64

/-- Modelled from the spec: the axis-aligned bounding box primitive
tracking min/max corners. -/
structure AABB where
  minP : Point
  maxP : Point
deriving DecidableEq

/-- Modelled from the spec: extending the box to include one more point
(`AABB::update`). -/
def aabbUpdate (bb : AABB) (p : Point) : AABB :=
  ⟨⟨min bb.minP.x p.x, min bb.minP.y p.y, min bb.minP.z p.z⟩,
   ⟨max bb.maxP.x p.x, max bb.maxP.y p.y, max bb.maxP.z p.z⟩⟩

/-- Modelled from the spec: `AABB(points->begin(), points->end())`, the
box of a whole sequence.  The source leaves the empty-range box in its
sentinel state; the model returns the degenerate box at the origin (the
registry is never constructed from an empty sequence, cf. the size_t
underflow captured by `scanPairBound`). -/
def aabbOf : List Point → AABB
  | [] => ⟨pz, pz⟩
  | p :: rest => rest.foldl aabbUpdate ⟨p, p⟩

/-- Membership of a point in a box, componentwise. -/
def inAABB (bb : AABB) (p : Point) : Prop :=
  bb.minP.x ≤ p.x ∧ p.x ≤ bb.maxP.x ∧
  bb.minP.y ≤ p.y ∧ p.y ≤ bb.maxP.y ∧
  bb.minP.z ≤ p.z ∧ p.z ≤ bb.maxP.z

instance (bb : AABB) (p : Point) : Decidable (inAABB bb p) :=
  inferInstanceAs (Decidable (_ ∧ _))

/-- The point registry state.  `name_id_map` models the `std::map` as an
association list in its iteration (key-sorted) order; `rel_eps` holds the
absolute tolerance (see the file comment); `warns` counts emitted WARN
diagnostics. -/
structure PointVec where
  data_vec : List Point
  name_id_map : List (String × ℕ)
  id_to_name_map : List String
  pnt_id_map : List ℕ
  aabb : AABB
  rel_eps : ℚ
  warns : ℕ
deriving DecidableEq

/-- The `id_names` side vector of `correctNameIDMapping` (lines 189-192):
one slot per original point, holding the (iteration-last) name mapped to
that original id, empty if unnamed.  It is built once and never updated
during the reconciliation pass. -/
def buildIdNames (nmap : List (String × ℕ)) (n : ℕ) : List String :=
  nmap.foldl (fun acc e => acc.set e.2 e.1) (List.replicate n "")

/-- `PointVec::correctNameIDMapping` (lines 186-218): one pass over the
name map in iteration order; entries whose id survived are kept, entries
collapsed onto an already-named survivor are erased, the rest have their
id replaced by the remap target. -/
def correctNameIDMapping (idm : List ℕ) (nmap : List (String × ℕ)) :
    List (String × ℕ) :=
  let idNames := buildIdNames nmap idm.length
  nmap.foldl
    (fun acc e =>
      if idm.getD e.2 0 = e.2 then acc ++ [e]
      else if idm.getD (idm.getD e.2 0) 0 = idm.getD e.2 0 then
        if (idNames.getD (idm.getD e.2 0) "").length ≠ 0 then acc
        else acc ++ [(e.1, idm.getD e.2 0)]
      else acc ++ [(e.1, idm.getD e.2 0)])
    []

/-- Building the inverse `_id_to_name_map` (lines 50-54): resize to the
canonical size, then write each name at its id (iteration order; a later
name overwrites an earlier one mapped to the same id). -/
def buildIdToName (nmap : List (String × ℕ)) (n : ℕ) : List String :=
  nmap.foldl (fun acc e => acc.set e.2 e.1) (List.replicate n "")

/-- The `PointVec` constructor (lines 31-55): bounding box over the raw
input, bulk deduplication, the duplicate-count warning, name
reconciliation, inverse name index.  `eps` is the absolute tolerance (see
the file comment on the square-root scaling). -/
def mkPointVec (pnts : List Point) (nmap : List (String × ℕ)) (eps : ℚ) :
    PointVec :=
  let r := makePntsUnique pnts eps
  let nmap2 := correctNameIDMapping r.2 nmap
  { data_vec := r.1
    name_id_map := nmap2
    id_to_name_map := buildIdToName nmap2 r.1.length
    pnt_id_map := r.2
    aabb := aabbOf pnts
    rel_eps := eps
    warns := if r.1.length < pnts.length then 1 else 0 }

/-- `PointVec::uniqueInsert` (lines 88-109): linear scan for a canonical
point within tolerance; on a hit the (destroyed) input is dropped and the
hit's id returned; otherwise the point is appended, the box extended, and
the new id returned. -/
def uniqueInsert (v : PointVec) (p : Point) : PointVec × ℕ :=
  match v.data_vec.findIdx? (fun q => decide (maxNormDist q p ≤ v.rel_eps)) with
  | some i => (v, i)
  | none =>
      ({ v with
          data_vec := v.data_vec ++ [p]
          aabb := aabbUpdate v.aabb p },
        v.data_vec.length)

/-- `PointVec::push_back(Point*)` (lines 60-65): records the id returned
by `uniqueInsert` in the remap, appends an empty name slot, and returns
the id. -/
def push_back (v : PointVec) (p : Point) : PointVec × ℕ :=
  let r := uniqueInsert v p
  ({ r.1 with
      pnt_id_map := r.1.pnt_id_map ++ [r.2]
      id_to_name_map := r.1.id_to_name_map ++ [""] }, r.2)

/-- Lexicographic comparison of character lists by code point; models the
`std::string` ordering of the `std::map` keys. -/
def strLtAux : List Char → List Char → Bool
  | [], [] => false
  | [], _ :: _ => true
  | _ :: _, [] => false
  | a :: as, b :: bs =>
      if a.toNat < b.toNat then true
      else if b.toNat < a.toNat then false
      else strLtAux as bs

/-- Modelled from the spec: the strict ordering of names in the
`std::map`. -/
def strLt (a b : String) : Bool := strLtAux a.data b.data

/-- Insertion into the `std::map` (`(*_name_id_map)[*name] = id`), keeping
the association list key-sorted. -/
def insertName : List (String × ℕ) → String → ℕ → List (String × ℕ)
  | [], nm, id => [(nm, id)]
  | e :: rest, nm, id =>
      if strLt nm e.1 then (nm, id) :: e :: rest
      else if nm = e.1 then (nm, id) :: rest
      else e :: insertName rest nm id

/-- `PointVec::push_back(Point*, std::string const* const)` (lines
67-86): with no name it behaves like the unnamed overload; with a name
already in use the call is rejected wholesale (only an empty reverse-index
slot is appended and a warning emitted); otherwise the point is inserted
via `uniqueInsert` and the name recorded for the returned id. -/
def push_back_named (v : PointVec) (p : Point) (name : Option String) :
    PointVec :=
  match name with
  | none =>
      let r := uniqueInsert v p
      { r.1 with
          pnt_id_map := r.1.pnt_id_map ++ [r.2]
          id_to_name_map := r.1.id_to_name_map ++ [""] }
  | some nm =>
      if (v.name_id_map.find? (fun e => e.1 == nm)).isSome then
        { v with
            id_to_name_map := v.id_to_name_map ++ [""]
            warns := v.warns + 1 }
      else
        let r := uniqueInsert v p
        { r.1 with
            pnt_id_map := r.1.pnt_id_map ++ [r.2]
            name_id_map := insertName r.1.name_id_map nm r.2
            id_to_name_map := r.1.id_to_name_map ++ [nm] }

/-- An incremental operation on the registry after construction. -/
inductive GeoOp where
  | insertPnt : Point → GeoOp
  | insertNamed : Point → Option String → GeoOp

/-- Applying one operation. -/
def applyOp (v : PointVec) : GeoOp → PointVec
  | .insertPnt p => (push_back v p).1
  | .insertNamed p nm => push_back_named v p nm

/-- Applying a sequence of operations. -/
def applyOps (v : PointVec) (ops : List GeoOp) : PointVec :=
  ops.foldl applyOp v

/-- Whether an operation grows `pnt_id_map` in state `v`: every insert
does, except a named insert whose name is already in use. -/
def opAccepted (v : PointVec) : GeoOp → Bool
  | .insertPnt _ => true
  | .insertNamed _ none => true
  | .insertNamed _ (some nm) =>
      ! (v.name_id_map.find? (fun e => e.1 == nm)).isSome

/-- Number of operations of a sequence that grow `pnt_id_map`, evaluated
along the evolving state. -/
def acceptedCount (v : PointVec) : List GeoOp → ℕ
  | [] => 0
  | op :: rest =>
      (if opAccepted v op then 1 else 0) + acceptedCount (applyOp v op) rest

/-- Adjacency of positions `k` and `k+1` of a (sorted) point sequence
within tolerance: the condition driving both the interval detection and
the collapse scan. -/
def adjV (sv : List Point) (eps : ℚ) (k : ℕ) : Prop :=
  k + 1 < sv.length ∧ maxNormDist (sv.getD (k + 1) pz) (sv.getD k pz) ≤ eps

/-- The run-start function of a (sorted) point sequence:
`runStartV sv eps j` is the first position of the maximal interval of
adjacent within-tolerance points containing position `j`. -/
def runStartV (sv : List Point) (eps : ℚ) : ℕ → ℕ
  | 0 => 0
  | k + 1 =>
      if maxNormDist (sv.getD (k + 1) pz) (sv.getD k pz) ≤ eps then
        runStartV sv eps k
      else k + 1

/-- Adjacency of sorted positions `k` and `k+1` of the bulk input. -/
def adjAt (pnts : List Point) (eps : ℚ) (k : ℕ) : Prop :=
  adjV (sortedVals pnts) eps k

/-- The run-start function of the sorted bulk input. -/
def runStart (pnts : List Point) (eps : ℚ) (j : ℕ) : ℕ :=
  runStartV (sortedVals pnts) eps j

instance (sv : List Point) (eps : ℚ) (k : ℕ) : Decidable (adjV sv eps k) :=
  inferInstanceAs (Decidable (_ ∧ _))

instance (pnts : List Point) (eps : ℚ) (k : ℕ) :
    Decidable (adjAt pnts eps k) :=
  inferInstanceAs (Decidable (adjV (sortedVals pnts) eps k))

/-- The interval-scan output together with the begin position `b` of the
still-open interval when the scan is entered with the flag raised; used to
state the invariants of the detection loop. -/
def scanSeg (eps : ℚ) (l : List Point) (k : ℕ) (flag : Bool) (b : ℕ) :
    List ℕ :=
  if flag then b :: intervalScan eps l k flag else intervalScan eps l k flag

/-- Number of surviving slots of a collapsed id map (positions `k` with
`idm[k] = k`); this is the number of canonical points. -/
def cntFix (idm : List ℕ) : ℕ :=
  ((List.range idm.length).filter (fun k => idm.getD k 0 = k)).length

/-- Number of surviving slots strictly below position `i`; this is the
canonical id the renumbering pass assigns to a surviving slot `i`. -/
def rankBelow (idm : List ℕ) (i : ℕ) : ℕ :=
  ((List.range i).filter (fun k => idm.getD k 0 = k)).length

/-! Concrete registries used by the scenario theorems, counterexamples and
witnesses. All absolute tolerances are `1/100`. -/

/-- Scenario A input: `[(0,0,0), (0,0,0.0001), (5,5,5)]`, tolerance `0.01`. -/
def scenAVec : PointVec :=
  mkPointVec [⟨0, 0, 0⟩, ⟨0, 0, mkRat 1 10000⟩, ⟨5, 5, 5⟩] [] (mkRat 1 100)

/-- Scenario B input: two collapsing points named `A` and `B`. -/
def scenBVec : PointVec :=
  mkPointVec [⟨0, 0, 0⟩, ⟨0, 0, mkRat 1 10000⟩] [("A", 0), ("B", 1)]
    (mkRat 1 100)

/-- Two within-tolerance points `(0,0,0)` and `(0.005,0,0)` separated in
the lexicographic order by the far-away blocker `(0.003,5,0)`. -/
def cexBlocker : PointVec :=
  mkPointVec [⟨0, 0, 0⟩, ⟨mkRat 3 1000, 5, 0⟩, ⟨mkRat 5 1000, 0, 0⟩] []
    (mkRat 1 100)

/-- A tolerance-equal pair whose lexicographically smaller member has the
larger original index. -/
def cexPairVec : PointVec :=
  mkPointVec [⟨0, 0, mkRat 1 10000⟩, ⟨0, 0, 0⟩] [] (mkRat 1 100)

/-- A tolerance-equal pair in insertion order; the second is removed. -/
def cexDupVec : PointVec :=
  mkPointVec [⟨0, 0, 0⟩, ⟨0, 0, mkRat 1 10000⟩] [] (mkRat 1 100)

/-- A single named point. -/
def cexNamedVec : PointVec :=
  mkPointVec [⟨0, 0, 0⟩] [("A", 0)] (mkRat 1 100)

/-- A single unnamed point. -/
def cexOneVec : PointVec :=
  mkPointVec [⟨0, 0, 0⟩] [] (mkRat 1 100)

/-- Three points collapsing onto the unnamed original index 0, with names
attached to original indices 1 and 2. -/
def cexChainVec : PointVec :=
  mkPointVec [⟨0, 0, 0⟩, ⟨0, 0, mkRat 1 1000⟩, ⟨0, 0, mkRat 2 1000⟩]
    [("A", 1), ("B", 2)] (mkRat 1 100)

/-! General list helper lemmas. -/

theorem ratSub_eq_sub (a b : ℚ) : ratSub a b = a - b := by
  have ha : (a.den : ℚ) ≠ 0 := Nat.cast_ne_zero.mpr a.den_nz
  have hb : (b.den : ℚ) ≠ 0 := Nat.cast_ne_zero.mpr b.den_nz
  rw [ratSub, Rat.mkRat_eq_div]
  conv_rhs => rw [← Rat.num_div_den a, ← Rat.num_div_den b]
  rw [div_sub_div _ _ ha hb]
  push_cast
  ring_nf

theorem maxNormDist_eq (p q : Point) :
    maxNormDist p q = max |p.x - q.x| (max |p.y - q.y| |p.z - q.z|) := by
  simp [maxNormDist, ratSub_eq_sub]

theorem findIdx?_some_spec {α : Type} {p : α → Bool} {l : List α} {i : ℕ}
    (d : α) (h : l.findIdx? p = some i) :
    i < l.length ∧ p (l.getD i d) = true := by
  rw [List.findIdx?_eq_some_iff_findIdx_eq] at h
  obtain ⟨hlt, hfi⟩ := h
  refine ⟨hlt, ?_⟩
  rw [List.getD_eq_getElem?_getD, List.getElem?_eq_getElem hlt]
  subst hfi
  simpa using @List.findIdx_getElem _ _ _ hlt

theorem findIdx?_isSome_of_exists {α : Type} {p : α → Bool} {l : List α}
    (h : ∃ x ∈ l, p x = true) : ∃ i, l.findIdx? p = some i := by
  have hs : (l.findIdx? p).isSome = true := by
    rw [List.findIdx?_isSome, List.any_eq_true]
    exact h
  exact Option.isSome_iff_exists.mp hs

theorem length_foldl_set {β : Type} (l : List (β × ℕ))
    (f : β × ℕ → String) (init : List String) :
    (l.foldl (fun acc e => acc.set e.2 (f e)) init).length = init.length := by
  induction l generalizing init with
  | nil => rfl
  | cons e rest ih => simpa [List.foldl] using (ih (init.set e.2 (f e))).trans (by simp)

theorem inAABB_update_self (bb : AABB) (p : Point) :
    inAABB (aabbUpdate bb p) p := by
  simp [inAABB, aabbUpdate, min_le_right, le_max_right]

theorem inAABB_update_mono {bb : AABB} {q : Point} (p : Point)
    (h : inAABB bb q) : inAABB (aabbUpdate bb p) q := by
  obtain ⟨h1, h2, h3, h4, h5, h6⟩ := h
  refine ⟨?_, ?_, ?_, ?_, ?_, ?_⟩ <;>
    simp [aabbUpdate] <;>
    first
      | exact Or.inl h1 | exact Or.inl h2 | exact Or.inl h3
      | exact Or.inl h4 | exact Or.inl h5 | exact Or.inl h6

theorem inAABB_foldl_mono {q : Point} (l : List Point) (bb : AABB)
    (h : inAABB bb q) : inAABB (l.foldl aabbUpdate bb) q := by
  induction l generalizing bb with
  | nil => exact h
  | cons p rest ih => exact ih _ (inAABB_update_mono p h)

theorem inAABB_foldl_mem {q : Point} (l : List Point) (bb : AABB)
    (h : q ∈ l) : inAABB (l.foldl aabbUpdate bb) q := by
  induction l generalizing bb with
  | nil => cases h
  | cons p rest ih =>
      rcases List.mem_cons.mp h with rfl | hm
      · exact inAABB_foldl_mono rest _ (inAABB_update_self bb q)
      · exact ih _ hm

theorem inAABB_aabbOf {q : Point} {l : List Point} (h : q ∈ l) :
    inAABB (aabbOf l) q := by
  cases l with
  | nil => cases h
  | cons p rest =>
      rcases List.mem_cons.mp h with rfl | hm
      · exact inAABB_foldl_mono rest _ (by simp [inAABB])
      · exact inAABB_foldl_mem rest _ hm

theorem mem_insertName (m : List (String × ℕ)) (nm : String) (id : ℕ) :
    (nm, id) ∈ insertName m nm id := by
  induction m with
  | nil => simp [insertName]
  | cons e rest ih =>
      simp only [insertName]
      by_cases h1 : strLt nm e.1 = true
      · simp [if_pos h1]
      · rw [if_neg h1]
        by_cases h2 : nm = e.1
        · simp [if_pos h2]
        · rw [if_neg h2]
          exact List.mem_cons_of_mem e ih

/-! Behavior of `push_back` and `push_back_named` on a duplicate point. -/

theorem push_back_found {v : PointVec} {p : Point} {i : ℕ}
    (h : v.data_vec.findIdx?
      (fun q => decide (maxNormDist q p ≤ v.rel_eps)) = some i) :
    push_back v p =
      ({ v with
          pnt_id_map := v.pnt_id_map ++ [i]
          id_to_name_map := v.id_to_name_map ++ [""] }, i) := by
  simp [push_back, uniqueInsert, h]

theorem push_back_new {v : PointVec} {p : Point}
    (h : v.data_vec.findIdx?
      (fun q => decide (maxNormDist q p ≤ v.rel_eps)) = none) :
    push_back v p =
      ({ v with
          data_vec := v.data_vec ++ [p]
          aabb := aabbUpdate v.aabb p
          pnt_id_map := v.pnt_id_map ++ [v.data_vec.length]
          id_to_name_map := v.id_to_name_map ++ [""] },
        v.data_vec.length) := by
  simp [push_back, uniqueInsert, h]

/-! Order facts for the two sort relations. -/

theorem lexLe_iff (p q : Point) :
    lexLe p q = true ↔
      p.x < q.x ∨ (p.x = q.x ∧ (p.y < q.y ∨ (p.y = q.y ∧ p.z ≤ q.z))) := by
  unfold lexLe
  split_ifs with h1 h2 h3 h4
  · simp only [true_iff]
    exact Or.inl h1
  · simp only [Bool.false_eq_true, false_iff]
    rintro (h | ⟨he, _⟩)
    · exact lt_asymm h2 h
    · exact absurd (he ▸ h2) (lt_irrefl _)
  · have hx : p.x = q.x := le_antisymm (not_lt.mp h2) (not_lt.mp h1)
    simp only [true_iff]
    exact Or.inr ⟨hx, Or.inl h3⟩
  · have hx : p.x = q.x := le_antisymm (not_lt.mp h2) (not_lt.mp h1)
    simp only [Bool.false_eq_true, false_iff]
    rintro (h | ⟨_, hy | ⟨hy, _⟩⟩)
    · exact absurd (hx ▸ h) (lt_irrefl _)
    · exact lt_asymm h4 hy
    · exact absurd (hy ▸ h4) (lt_irrefl _)
  · have hx : p.x = q.x := le_antisymm (not_lt.mp h2) (not_lt.mp h1)
    have hy : p.y = q.y := le_antisymm (not_lt.mp h4) (not_lt.mp h3)
    simp only [decide_eq_true_eq]
    constructor
    · intro hz
      exact Or.inr ⟨hx, Or.inr ⟨hy, hz⟩⟩
    · rintro (h | ⟨_, hyy | ⟨_, hz⟩⟩)
      · exact absurd (hx ▸ h) (lt_irrefl _)
      · exact absurd (hy ▸ hyy) (lt_irrefl _)
      · exact hz

theorem lexLe_total (p q : Point) : lexLe p q = true ∨ lexLe q p = true := by
  rw [lexLe_iff, lexLe_iff]
  rcases lt_trichotomy p.x q.x with h | h | h
  · exact Or.inl (Or.inl h)
  · rcases lt_trichotomy p.y q.y with h2 | h2 | h2
    · exact Or.inl (Or.inr ⟨h, Or.inl h2⟩)
    · rcases le_total p.z q.z with h3 | h3
      · exact Or.inl (Or.inr ⟨h, Or.inr ⟨h2, h3⟩⟩)
      · exact Or.inr (Or.inr ⟨h.symm, Or.inr ⟨h2.symm, h3⟩⟩)
    · exact Or.inr (Or.inr ⟨h.symm, Or.inl h2⟩)
  · exact Or.inr (Or.inl h)

theorem lexLe_trans {p q r : Point} (h1 : lexLe p q = true)
    (h2 : lexLe q r = true) : lexLe p r = true := by
  rw [lexLe_iff] at h1 h2 ⊢
  rcases h1 with hx | ⟨hx, hy⟩
  · rcases h2 with hx2 | ⟨hx2, _⟩
    · exact Or.inl (hx.trans hx2)
    · exact Or.inl (hx2 ▸ hx)
  · rcases h2 with hx2 | ⟨hx2, hy2⟩
    · exact Or.inl (hx ▸ hx2)
    · refine Or.inr ⟨hx.trans hx2, ?_⟩
      rcases hy with hy | ⟨hy, hz⟩
      · rcases hy2 with hy2 | ⟨hy2, _⟩
        · exact Or.inl (hy.trans hy2)
        · exact Or.inl (hy2 ▸ hy)
      · rcases hy2 with hy2 | ⟨hy2, hz2⟩
        · exact Or.inl (hy ▸ hy2)
        · exact Or.inr ⟨hy.trans hy2, hz.trans hz2⟩

instance : IsTotal (Point × ℕ) pairLe := ⟨fun a b => lexLe_total a.1 b.1⟩

instance : IsTrans (Point × ℕ) pairLe :=
  ⟨fun _ _ _ h1 h2 => lexLe_trans h1 h2⟩

instance : IsTotal (ℕ × Point) idxLe := ⟨fun a b => Nat.le_total a.1 b.1⟩

instance : IsTrans (ℕ × Point) idxLe :=
  ⟨fun _ _ _ h1 h2 => Nat.le_trans h1 h2⟩

/-! Permutation and sortedness of the first sort. -/

theorem sortedPairs_sorted (pnts : List Point) :
    List.Sorted pairLe (sortedPairs pnts) :=
  List.sorted_insertionSort pairLe _

theorem sortedPairs_perm (pnts : List Point) :
    (sortedPairs pnts).Perm (pnts.zip (List.range pnts.length)) :=
  List.perm_insertionSort pairLe _

theorem sortedPairs_length (pnts : List Point) :
    (sortedPairs pnts).length = pnts.length := by
  rw [(sortedPairs_perm pnts).length_eq]
  simp

theorem sortedVals_length (pnts : List Point) :
    (sortedVals pnts).length = pnts.length := by
  simp [sortedVals, sortedPairs_length]

theorem sortedPerm_length (pnts : List Point) :
    (sortedPerm pnts).length = pnts.length := by
  simp [sortedPerm, sortedPairs_length]

theorem sortedPerm_perm_range (pnts : List Point) :
    (sortedPerm pnts).Perm (List.range pnts.length) := by
  have h := (sortedPairs_perm pnts).map Prod.snd
  rwa [List.map_snd_zip _ _ (by simp)] at h

theorem sortedPerm_nodup (pnts : List Point) : (sortedPerm pnts).Nodup :=
  ((sortedPerm_perm_range pnts).nodup_iff).mpr (List.nodup_range _)

theorem sortedPerm_mem_lt (pnts : List Point) {x : ℕ}
    (h : x ∈ sortedPerm pnts) : x < pnts.length := by
  have := (sortedPerm_perm_range pnts).mem_iff.mp h
  simpa using this

/-! getD helpers. -/

theorem getD_mem {α : Type} {l : List α} {i : ℕ} (d : α) (h : i < l.length) :
    l.getD i d ∈ l := by
  rw [List.getD_eq_getElem?_getD, List.getElem?_eq_getElem h]
  exact List.getElem_mem h

theorem getD_inj {l : List ℕ} (hn : l.Nodup) {i j : ℕ}
    (hi : i < l.length) (hj : j < l.length)
    (h : l.getD i 0 = l.getD j 0) : i = j := by
  rw [List.getD_eq_getElem?_getD, List.getElem?_eq_getElem hi,
    List.getD_eq_getElem?_getD, List.getElem?_eq_getElem hj] at h
  simp only [Option.getD_some] at h
  have h2 : l.get ⟨i, hi⟩ = l.get ⟨j, hj⟩ := by
    simpa [List.get_eq_getElem] using h
  exact congrArg Fin.val (List.nodup_iff_injective_get.mp hn h2)

/-! The interval-detection loop: parity, bounds, pair structure and
coverage of every adjacent within-tolerance position. -/

theorem pairify_head_fst_mem (m : List ℕ) (pr : ℕ × ℕ)
    (h : pr ∈ (pairify m).head?) : pr.1 ∈ m := by
  match m with
  | [] => simp [pairify] at h
  | [x] => simp [pairify] at h
  | x :: y :: t =>
      simp [pairify] at h
      rw [← h]
      simp

theorem intervalScan_length_parity (eps : ℚ) :
    ∀ (l : List Point) (k : ℕ) (flag : Bool), (flag = true → l ≠ []) →
      (intervalScan eps l k flag).length % 2 = if flag = true then 1 else 0 := by
  intro l
  induction l with
  | nil =>
      intro k flag h
      cases flag
      · simp [intervalScan]
      · exact absurd rfl (h rfl)
  | cons p t ih =>
      intro k flag h
      cases t with
      | nil => cases flag <;> simp [intervalScan]
      | cons q rest =>
          have h1 := ih (k + 1) true (by simp)
          have h2 := ih (k + 1) false (by simp)
          by_cases hc : maxNormDist q p ≤ eps <;> cases flag <;>
            simp [intervalScan, hc] at h1 h2 ⊢ <;> omega

theorem intervalScan_bounds (eps : ℚ) :
    ∀ (l : List Point) (k : ℕ) (flag : Bool) (x : ℕ),
      x ∈ intervalScan eps l k flag →
      (if flag = true then k + 1 else k) ≤ x ∧ x ≤ k + l.length := by
  intro l
  induction l with
  | nil => intro k flag x hx; simp [intervalScan] at hx
  | cons p t ih =>
      intro k flag x hx
      cases t with
      | nil =>
          cases flag <;> simp [intervalScan] at hx <;> simp
          omega
      | cons q rest =>
          by_cases hc : maxNormDist q p ≤ eps
          · cases flag
            · simp only [intervalScan, if_pos hc, Bool.false_eq_true,
                if_false, List.cons_append, List.nil_append,
                List.mem_cons] at hx
              rcases hx with rfl | hx
              · simp
              · have := ih (k + 1) true x hx
                simp at this ⊢
                omega
            · simp only [intervalScan, if_pos hc, if_true,
                List.nil_append] at hx
              have := ih (k + 1) true x hx
              simp at this ⊢
              omega
          · cases flag
            · simp only [intervalScan, if_neg hc, Bool.false_eq_true,
                if_false, List.nil_append] at hx
              have := ih (k + 1) false x hx
              simp at this ⊢
              omega
            · simp only [intervalScan, if_neg hc, if_true,
                List.cons_append, List.nil_append, List.mem_cons] at hx
              rcases hx with rfl | hx
              · simp
              · have := ih (k + 1) false x hx
                simp at this ⊢
                omega

theorem scanSeg_close_eq (eps : ℚ) (p q : Point) (rest : List Point)
    (k : ℕ) (flag : Bool) (b : ℕ) (hc : maxNormDist q p ≤ eps) :
    scanSeg eps (p :: q :: rest) k flag b =
      scanSeg eps (q :: rest) (k + 1) true (if flag = true then b else k) := by
  cases flag <;> simp [scanSeg, intervalScan, hc]

theorem scanSeg_far_false_eq (eps : ℚ) (p q : Point) (rest : List Point)
    (k : ℕ) (b : ℕ) (hc : ¬ maxNormDist q p ≤ eps) :
    scanSeg eps (p :: q :: rest) k false b =
      scanSeg eps (q :: rest) (k + 1) false 0 := by
  simp [scanSeg, intervalScan, hc]

theorem scanSeg_far_true_eq (eps : ℚ) (p q : Point) (rest : List Point)
    (k : ℕ) (b : ℕ) (hc : ¬ maxNormDist q p ≤ eps) :
    scanSeg eps (p :: q :: rest) k true b =
      b :: (k + 1) :: scanSeg eps (q :: rest) (k + 1) false 0 := by
  simp [scanSeg, intervalScan, hc]

theorem intervalScan_pairs (eps : ℚ) :
    ∀ (l : List Point) (k : ℕ) (flag : Bool) (b : ℕ),
      (flag = true → b < k ∧ l ≠ []) →
      (∀ pr ∈ pairify (scanSeg eps l k flag b),
        pr.1 < pr.2 ∧ pr.2 ≤ k + l.length) ∧
      List.Chain' (fun x y : ℕ × ℕ => x.2 ≤ y.1)
        (pairify (scanSeg eps l k flag b)) := by
  intro l
  induction l with
  | nil =>
      intro k flag b h
      cases flag
      · simp [scanSeg, intervalScan, pairify]
      · exact absurd rfl (h rfl).2
  | cons p t ih =>
      intro k flag b h
      cases t with
      | nil =>
          cases flag
          · simp [scanSeg, intervalScan, pairify]
          · obtain ⟨hb, -⟩ := h rfl
            refine ⟨?_, ?_⟩
            · intro pr hpr
              simp [scanSeg, intervalScan, pairify] at hpr
              rw [hpr]
              simp
              omega
            · simp [scanSeg, intervalScan, pairify]
      | cons q rest =>
          by_cases hc : maxNormDist q p ≤ eps
          · rw [scanSeg_close_eq eps p q rest k flag b hc]
            have hb2 : (if flag = true then b else k) < k + 1 := by
              cases flag
              · simp
              · simp only [if_pos rfl]
                exact Nat.lt_succ_of_lt (h rfl).1
            have hmain := ih (k + 1) true (if flag = true then b else k)
              (fun _ => ⟨hb2, by simp⟩)
            refine ⟨?_, hmain.2⟩
            intro pr hpr
            have h2 := hmain.1 pr hpr
            simp at h2 ⊢
            omega
          · cases flag
            · rw [scanSeg_far_false_eq eps p q rest k b hc]
              have hmain := ih (k + 1) false 0 (by simp)
              refine ⟨?_, hmain.2⟩
              intro pr hpr
              have h2 := hmain.1 pr hpr
              simp at h2 ⊢
              omega
            · obtain ⟨hb, -⟩ := h rfl
              rw [scanSeg_far_true_eq eps p q rest k b hc]
              have hmain := ih (k + 1) false 0 (by simp)
              have hseg : scanSeg eps (q :: rest) (k + 1) false 0 =
                  intervalScan eps (q :: rest) (k + 1) false := by
                simp [scanSeg]
              rw [pairify]
              refine ⟨?_, ?_⟩
              · intro pr hpr
                rcases List.mem_cons.mp hpr with rfl | hpr
                · simp
                  omega
                · have h2 := hmain.1 pr hpr
                  simp at h2 ⊢
                  omega
              · rw [List.chain'_cons']
                refine ⟨?_, hmain.2⟩
                intro pr2 hpr2
                have hfst : pr2.1 ∈ scanSeg eps (q :: rest) (k + 1) false 0 :=
                  pairify_head_fst_mem _ pr2 hpr2
                rw [hseg] at hfst
                have := intervalScan_bounds eps (q :: rest) (k + 1) false
                  pr2.1 hfst
                simp at this
                omega

theorem drop_cons_cons_facts {sv : List Point} {k : ℕ} {p q : Point}
    {rest : List Point} (hk : p :: q :: rest = sv.drop k) :
    sv.drop (k + 1) = q :: rest ∧ sv.getD k pz = p ∧
    sv.getD (k + 1) pz = q ∧ k + 1 < sv.length := by
  have htail : sv.drop (k + 1) = q :: rest := by
    rw [← List.tail_drop, ← hk]
    rfl
  have hp : sv[k]? = some p := by
    rw [← List.head?_drop, ← hk]
    rfl
  have hq : sv[k + 1]? = some q := by
    rw [← List.head?_drop, htail]
    rfl
  have hlen : k + 1 < sv.length := by
    have := congrArg List.length htail
    simp [List.length_drop] at this
    omega
  refine ⟨htail, ?_, ?_, hlen⟩
  · rw [List.getD_eq_getElem?_getD, hp]
    rfl
  · rw [List.getD_eq_getElem?_getD, hq]
    rfl

theorem adjV_iff_of_drop {sv : List Point} {eps : ℚ} {k : ℕ}
    {p q : Point} {rest : List Point} (hk : p :: q :: rest = sv.drop k) :
    adjV sv eps k ↔ maxNormDist q p ≤ eps := by
  obtain ⟨-, hp, hq, hlen⟩ := drop_cons_cons_facts hk
  unfold adjV
  rw [hp, hq]
  exact ⟨fun h => h.2, fun h => ⟨hlen, h⟩⟩

theorem intervalScan_cover (sv : List Point) (eps : ℚ) :
    ∀ (l : List Point) (k : ℕ) (flag : Bool) (b : ℕ),
      l = sv.drop k → (flag = true → b < k) →
      ∀ j, adjV sv eps j → k - (if flag = true then 1 else 0) ≤ j →
        ∃ pr ∈ pairify (scanSeg eps l k flag b), pr.1 ≤ j ∧ j + 1 < pr.2 := by
  intro l
  induction l with
  | nil =>
      intro k flag b hk hb j hadj hjk
      have hlen : sv.length ≤ k := List.drop_eq_nil_iff.mp hk.symm
      have := hadj.1
      cases flag <;> simp at hjk <;> omega
  | cons p t ih =>
      intro k flag b hk hb j hadj hjk
      cases t with
      | nil =>
          have hlen : sv.length = k + 1 := by
            have h1 := congrArg List.length hk
            simp [List.length_drop] at h1
            have h2 : ¬ sv.length ≤ k := by
              intro hle
              rw [List.drop_eq_nil_iff.mpr hle] at hk
              exact List.cons_ne_nil p [] hk
            omega
          have hj1 := hadj.1
          cases flag
          · simp at hjk
            omega
          · have hbk := hb rfl
            simp at hjk
            have hj : j = k - 1 := by omega
            refine ⟨(b, k + 1), ?_, ?_, ?_⟩
            · simp [scanSeg, intervalScan, pairify]
            · omega
            · omega
      | cons q rest =>
          obtain ⟨htail, hp, hq, hlen⟩ := drop_cons_cons_facts hk
          have hadjk := @adjV_iff_of_drop sv eps k p q rest hk
          by_cases hc : maxNormDist q p ≤ eps
          · rw [scanSeg_close_eq eps p q rest k flag b hc]
            by_cases hjge : k ≤ j
            · refine ih (k + 1) true (if flag = true then b else k)
                htail.symm ?_ j hadj (by simp; omega)
              intro
              cases flag
              · simp
              · simp only [if_pos rfl]
                exact Nat.lt_succ_of_lt (hb rfl)
            · -- only possible with the flag raised and j = k - 1
              cases flag
              · simp at hjk
                omega
              · have hbk := hb rfl
                simp at hjk
                have hj : j = k - 1 := by omega
                have hpar := intervalScan_length_parity eps (q :: rest)
                  (k + 1) true (by simp)
                simp at hpar
                have hne : intervalScan eps (q :: rest) (k + 1) true ≠ [] := by
                  intro hnil
                  rw [hnil] at hpar
                  simp at hpar
                obtain ⟨e1, O2, hO⟩ := List.exists_cons_of_ne_nil hne
                have he1 : k + 2 ≤ e1 := by
                  have := intervalScan_bounds eps (q :: rest) (k + 1) true e1
                    (by rw [hO]; simp)
                  simp at this
                  omega
                refine ⟨(b, e1), ?_, by omega, by omega⟩
                simp only [scanSeg, if_pos rfl, hO, pairify]
                simp
          · cases flag
            · rw [scanSeg_far_false_eq eps p q rest k b hc]
              simp at hjk
              rcases Nat.lt_or_ge j (k + 1) with hj | hj
              · have hjeq : j = k := by omega
                rw [hjeq] at hadj
                exact absurd (hadjk.mp hadj) hc
              · exact ih (k + 1) false 0 htail.symm (by simp) j hadj
                  (by simp; omega)
            · have hbk := hb rfl
              rw [scanSeg_far_true_eq eps p q rest k b hc]
              simp at hjk
              rcases Nat.lt_or_ge j k with hj | hj
              · have hjeq : j = k - 1 := by omega
                refine ⟨(b, k + 1), ?_, by omega, by omega⟩
                rw [pairify]
                simp
              · rcases Nat.lt_or_ge j (k + 1) with hj2 | hj2
                · have hjeq : j = k := by omega
                  rw [hjeq] at hadj
                  exact absurd (hadjk.mp hadj) hc
                · obtain ⟨pr, hpr, hpr1, hpr2⟩ := ih (k + 1) false 0
                    htail.symm (by simp) j hadj (by simp; omega)
                  refine ⟨pr, ?_, hpr1, hpr2⟩
                  rw [pairify]
                  exact List.mem_cons_of_mem _ hpr

theorem ivPairs_spec (sv : List Point) (eps : ℚ) :
    (∀ pr ∈ pairify (intervals sv eps), pr.1 < pr.2 ∧ pr.2 ≤ sv.length) ∧
    List.Chain' (fun x y : ℕ × ℕ => x.2 ≤ y.1)
      (pairify (intervals sv eps)) := by
  have h := intervalScan_pairs eps sv 0 false 0 (by simp)
  have hseg : scanSeg eps sv 0 false 0 = intervals sv eps := by
    simp [scanSeg, intervals]
  rw [hseg] at h
  refine ⟨fun pr hpr => ?_, h.2⟩
  have := h.1 pr hpr
  simpa using this

theorem ivPairs_cover (sv : List Point) (eps : ℚ) (j : ℕ)
    (hadj : adjV sv eps j) :
    ∃ pr ∈ pairify (intervals sv eps), pr.1 ≤ j ∧ j + 1 < pr.2 := by
  have h := intervalScan_cover sv eps sv 0 false 0 (by simp) (by simp) j hadj
    (by simp)
  have hseg : scanSeg eps sv 0 false 0 = intervals sv eps := by
    simp [scanSeg, intervals]
  rwa [hseg] at h

theorem chain_head_le {pr0 : ℕ × ℕ} :
    ∀ (prs : List (ℕ × ℕ)),
      List.Chain' (fun x y : ℕ × ℕ => x.2 ≤ y.1) (pr0 :: prs) →
      (∀ pr ∈ prs, pr.1 < pr.2) →
      ∀ y ∈ prs, pr0.2 ≤ y.1 := by
  intro prs
  induction prs generalizing pr0 with
  | nil => intro _ _ y hy; cases hy
  | cons pr1 t ih =>
      intro hch hstrict y hy
      rw [List.chain'_cons] at hch
      rcases List.mem_cons.mp hy with rfl | hy
      · exact hch.1
      · have h1 := ih hch.2 (fun pr hpr => hstrict pr (List.mem_cons_of_mem _ hpr)) y hy
        have h2 : pr1.1 < pr1.2 := hstrict pr1 (List.mem_cons_self _ _)
        omega

theorem chain_disjoint_pairwise :
    ∀ (prs : List (ℕ × ℕ)),
      List.Chain' (fun x y : ℕ × ℕ => x.2 ≤ y.1) prs →
      (∀ pr ∈ prs, pr.1 < pr.2) →
      List.Pairwise (fun x y : ℕ × ℕ => x.2 ≤ y.1) prs := by
  intro prs
  induction prs with
  | nil => intro _ _; exact List.Pairwise.nil
  | cons pr0 t ih =>
      intro hch hstrict
      refine List.Pairwise.cons ?_ (ih hch.tail
        (fun pr hpr => hstrict pr (List.mem_cons_of_mem _ hpr)))
      exact chain_head_le t hch
        (fun pr hpr => hstrict pr (List.mem_cons_of_mem _ hpr))

/-! sortSlice: permutation, untouched positions, strict sortedness of the
slice. -/

theorem sortSlice_perm (l : List ℕ) (b e : ℕ) (hb : b ≤ e)
    (he : e ≤ l.length) : (sortSlice l b e).Perm l := by
  have hdecomp : l = l.take b ++ ((l.drop b).take (e - b) ++ l.drop e) := by
    conv_lhs => rw [← List.take_append_drop b l]
    congr 1
    conv_lhs => rw [← List.take_append_drop (e - b) (l.drop b)]
    congr 1
    rw [List.drop_drop]
    congr 1
    omega
  rw [sortSlice]
  have h1 : (l.take b ++ List.insertionSort (· ≤ ·) ((l.drop b).take (e - b))
      ++ l.drop e).Perm
      (l.take b ++ (l.drop b).take (e - b) ++ l.drop e) :=
    List.Perm.append_right _ (List.Perm.append_left _
      (List.perm_insertionSort _ _))
  refine h1.trans ?_
  rw [List.append_assoc, ← hdecomp]

theorem sortSlice_length (l : List ℕ) (b e : ℕ) (hb : b ≤ e)
    (he : e ≤ l.length) : (sortSlice l b e).length = l.length :=
  (sortSlice_perm l b e hb he).length_eq

theorem sortSlice_getElem?_lt (l : List ℕ) {b e i : ℕ} (hi : i < b)
    (hb : b ≤ e) (he : e ≤ l.length) : (sortSlice l b e)[i]? = l[i]? := by
  have htb : (l.take b).length = b := by
    rw [List.length_take]
    omega
  rw [sortSlice, List.append_assoc, List.getElem?_append_left (by omega),
    List.getElem?_take]
  rw [if_pos hi]

theorem sortSlice_getElem?_ge (l : List ℕ) {b e i : ℕ} (hi : e ≤ i)
    (hb : b ≤ e) (he : e ≤ l.length) : (sortSlice l b e)[i]? = l[i]? := by
  have hlen1 : (l.take b ++
      List.insertionSort (· ≤ ·) ((l.drop b).take (e - b))).length = e := by
    simp [List.length_take, List.length_insertionSort, List.length_drop]
    omega
  rw [sortSlice, List.getElem?_append_right (by omega), hlen1,
    List.getElem?_drop]
  congr 1
  omega

theorem sortSlice_getElem?_mid (l : List ℕ) {b e i : ℕ} (hbi : b ≤ i)
    (hie : i < e) (he : e ≤ l.length) :
    (sortSlice l b e)[i]? =
      (List.insertionSort (· ≤ ·) ((l.drop b).take (e - b)))[i - b]? := by
  have htb : (l.take b).length = b := by
    rw [List.length_take]
    omega
  have hsm : (List.insertionSort (· ≤ ·) ((l.drop b).take (e - b))).length
      = e - b := by
    simp [List.length_insertionSort, List.length_take, List.length_drop]
    omega
  rw [sortSlice, List.append_assoc, List.getElem?_append_right (by omega),
    htb, List.getElem?_append_left (by omega)]

theorem sortSlice_slice_lt (l : List ℕ) {b e i j : ℕ} (hl : l.Nodup)
    (hbi : b ≤ i) (hij : i < j) (hje : j < e) (he : e ≤ l.length) :
    (sortSlice l b e).getD i 0 < (sortSlice l b e).getD j 0 := by
  set mid := (l.drop b).take (e - b) with hmid
  set sm := List.insertionSort (· ≤ ·) mid with hsm
  have hsml : sm.length = e - b := by
    simp [hsm, List.length_insertionSort, hmid, List.length_take,
      List.length_drop]
    omega
  have hmidnd : mid.Nodup :=
    List.Nodup.sublist ((List.take_sublist _ _).trans (List.drop_sublist _ _)) hl
  have hsmnd : sm.Nodup := (List.perm_insertionSort _ _).nodup_iff.mpr hmidnd
  have hsorted : List.Sorted (· ≤ ·) sm := List.sorted_insertionSort _ _
  have hstrict : List.Sorted (· < ·) sm := hsorted.lt_of_le hsmnd
  have hi2 : i - b < sm.length := by omega
  have hj2 : j - b < sm.length := by omega
  have hgi : (sortSlice l b e).getD i 0 = sm.get ⟨i - b, hi2⟩ := by
    rw [List.getD_eq_getElem?_getD,
      sortSlice_getElem?_mid l hbi (by omega) he,
      List.getElem?_eq_getElem hi2]
    simp [List.get_eq_getElem]
  have hgj : (sortSlice l b e).getD j 0 = sm.get ⟨j - b, hj2⟩ := by
    rw [List.getD_eq_getElem?_getD,
      sortSlice_getElem?_mid l (by omega) hje he,
      List.getElem?_eq_getElem hj2]
    simp [List.get_eq_getElem]
  rw [hgi, hgj]
  exact List.pairwise_iff_get.mp hstrict ⟨i - b, hi2⟩ ⟨j - b, hj2⟩
    (by simp; omega)

/-! The stabilization fold: permutation preservation, untouched positions,
and strict ascent inside every interval. -/

theorem stabilize_spec :
    ∀ (prs : List (ℕ × ℕ)) (l : List ℕ),
      l.Nodup →
      (∀ pr ∈ prs, pr.1 < pr.2 ∧ pr.2 ≤ l.length) →
      List.Pairwise (fun x y : ℕ × ℕ => x.2 ≤ y.1) prs →
      (stabilize prs l).Perm l ∧
      (∀ i, (∀ pr ∈ prs, i < pr.1 ∨ pr.2 ≤ i) →
        (stabilize prs l)[i]? = l[i]?) ∧
      (∀ pr ∈ prs, ∀ i j, pr.1 ≤ i → i < j → j < pr.2 →
        (stabilize prs l).getD i 0 < (stabilize prs l).getD j 0) := by
  intro prs
  induction prs with
  | nil =>
      intro l hl hbounds hpw
      refine ⟨List.Perm.refl l, fun i _ => rfl, fun pr hpr => ?_⟩
      cases hpr
  | cons pr0 t ih =>
      intro l hl hbounds hpw
      have hstep : stabilize (pr0 :: t) l =
          stabilize t (sortSlice l pr0.1 pr0.2) := by
        simp [stabilize, List.foldl_cons]
      obtain ⟨h01, h02⟩ := hbounds pr0 (List.mem_cons_self _ _)
      have hb : pr0.1 ≤ pr0.2 := Nat.le_of_lt h01
      set l1 := sortSlice l pr0.1 pr0.2 with hl1
      have hperm1 : l1.Perm l := sortSlice_perm l pr0.1 pr0.2 hb h02
      have hnd1 : l1.Nodup := hperm1.nodup_iff.mpr hl
      have hlen1 : l1.length = l.length := hperm1.length_eq
      have hbt : ∀ pr ∈ t, pr.1 < pr.2 ∧ pr.2 ≤ l1.length := by
        intro pr hpr
        have := hbounds pr (List.mem_cons_of_mem _ hpr)
        omega
      have hhead : ∀ pr ∈ t, pr0.2 ≤ pr.1 :=
        fun pr hpr => List.rel_of_pairwise_cons hpw hpr
      have ihx := ih l1 hnd1 hbt hpw.tail
      rw [hstep]
      refine ⟨ihx.1.trans hperm1, ?_, ?_⟩
      · intro i hout
        have h1 := ihx.2.1 i
          (fun pr hpr => hout pr (List.mem_cons_of_mem _ hpr))
        rw [h1]
        rcases hout pr0 (List.mem_cons_self _ _) with hlt | hge
        · exact sortSlice_getElem?_lt l hlt hb h02
        · exact sortSlice_getElem?_ge l hge hb h02
      · intro pr hpr i j hi hij hj
        rcases List.mem_cons.mp hpr with rfl | hpr
        · have hmid : ∀ m, pr.1 ≤ m → m < pr.2 →
              (stabilize t l1).getD m 0 = l1.getD m 0 := by
            intro m hm1 hm2
            have h1 := ihx.2.1 m (fun pr2 hpr2 => Or.inl (by
              have := hhead pr2 hpr2
              omega))
            rw [List.getD_eq_getElem?_getD, h1, ← List.getD_eq_getElem?_getD]
          rw [hmid i hi (by omega), hmid j (by omega) hj]
          exact sortSlice_slice_lt l hl hi hij hj h02
        · exact ihx.2.2 pr hpr i j hi hij hj

/-! The stabilized permutation: a permutation of the index range, with
strict ascent across every adjacent within-tolerance pair. -/

theorem stabPerm_spec (pnts : List Point) (eps : ℚ) :
    (stabPerm pnts eps).Perm (sortedPerm pnts) ∧
    (∀ pr ∈ pairify (intervals (sortedVals pnts) eps), ∀ i j,
      pr.1 ≤ i → i < j → j < pr.2 →
      (stabPerm pnts eps).getD i 0 < (stabPerm pnts eps).getD j 0) := by
  have hspec := ivPairs_spec (sortedVals pnts) eps
  have hbounds : ∀ pr ∈ pairify (intervals (sortedVals pnts) eps),
      pr.1 < pr.2 ∧ pr.2 ≤ (sortedPerm pnts).length := by
    intro pr hpr
    have h1 := hspec.1 pr hpr
    rw [sortedVals_length] at h1
    rw [sortedPerm_length]
    exact h1
  have hpw := chain_disjoint_pairwise _ hspec.2
    (fun pr hpr => (hspec.1 pr hpr).1)
  have h := stabilize_spec (pairify (intervals (sortedVals pnts) eps))
    (sortedPerm pnts) (sortedPerm_nodup pnts) hbounds hpw
  exact ⟨h.1, h.2.2⟩

theorem stabPerm_perm_range (pnts : List Point) (eps : ℚ) :
    (stabPerm pnts eps).Perm (List.range pnts.length) :=
  (stabPerm_spec pnts eps).1.trans (sortedPerm_perm_range pnts)

theorem stabPerm_length (pnts : List Point) (eps : ℚ) :
    (stabPerm pnts eps).length = pnts.length := by
  rw [(stabPerm_perm_range pnts eps).length_eq]
  simp

theorem stabPerm_nodup (pnts : List Point) (eps : ℚ) :
    (stabPerm pnts eps).Nodup :=
  (stabPerm_perm_range pnts eps).nodup_iff.mpr (List.nodup_range _)

theorem stabPerm_mem_lt (pnts : List Point) (eps : ℚ) {x : ℕ}
    (h : x ∈ stabPerm pnts eps) : x < pnts.length := by
  have := (stabPerm_perm_range pnts eps).mem_iff.mp h
  simpa using this

theorem stabPerm_getD_lt (pnts : List Point) (eps : ℚ) {j : ℕ}
    (hj : j < pnts.length) : (stabPerm pnts eps).getD j 0 < pnts.length :=
  stabPerm_mem_lt pnts eps (getD_mem 0 (by rw [stabPerm_length]; exact hj))

theorem stabPerm_getD_inj (pnts : List Point) (eps : ℚ) {i j : ℕ}
    (hi : i < pnts.length) (hj : j < pnts.length)
    (h : (stabPerm pnts eps).getD i 0 = (stabPerm pnts eps).getD j 0) :
    i = j :=
  getD_inj (stabPerm_nodup pnts eps)
    (by rw [stabPerm_length]; exact hi)
    (by rw [stabPerm_length]; exact hj) h

theorem stabPerm_adj_lt (pnts : List Point) (eps : ℚ) {k : ℕ}
    (hadj : adjAt pnts eps k) :
    (stabPerm pnts eps).getD k 0 < (stabPerm pnts eps).getD (k + 1) 0 := by
  have hadj2 : adjV (sortedVals pnts) eps k := hadj
  obtain ⟨pr, hpr, h1, h2⟩ := ivPairs_cover (sortedVals pnts) eps k hadj2
  exact (stabPerm_spec pnts eps).2 pr hpr k (k + 1) h1 (Nat.lt_succ_self k) h2

/-! The run-start function: within a run every adjacent pair is within
tolerance, run starts are idempotent, and the stabilized permutation
ascends strictly along a run. -/

theorem runStartV_le (sv : List Point) (eps : ℚ) :
    ∀ j, runStartV sv eps j ≤ j := by
  intro j
  induction j with
  | zero => simp [runStartV]
  | succ k ih =>
      rw [runStartV]
      split
      · exact Nat.le_succ_of_le ih
      · exact Nat.le_refl _

theorem runStartV_adj (sv : List Point) (eps : ℚ) :
    ∀ j t, runStartV sv eps j ≤ t → t < j →
      maxNormDist (sv.getD (t + 1) pz) (sv.getD t pz) ≤ eps := by
  intro j
  induction j with
  | zero => intro t _ ht; omega
  | succ k ih =>
      intro t h1 h2
      rw [runStartV] at h1
      by_cases hc : maxNormDist (sv.getD (k + 1) pz) (sv.getD k pz) ≤ eps
      · rw [if_pos hc] at h1
        rcases Nat.lt_or_ge t k with ht | ht
        · exact ih t h1 ht
        · have : t = k := by omega
          rw [this]
          exact hc
      · rw [if_neg hc] at h1
        omega

theorem runStartV_idem (sv : List Point) (eps : ℚ) :
    ∀ j, runStartV sv eps (runStartV sv eps j) = runStartV sv eps j := by
  intro j
  induction j with
  | zero => simp [runStartV]
  | succ k ih =>
      rw [runStartV]
      split
      · exact ih
      · rw [runStartV]
        split
        · next hc2 => next hc => exact absurd hc2 hc
        · rfl

theorem adjAt_of_run (pnts : List Point) (eps : ℚ) {j t : ℕ}
    (hj : j < pnts.length)
    (h1 : runStartV (sortedVals pnts) eps j ≤ t) (h2 : t < j) :
    adjAt pnts eps t := by
  refine ⟨?_, runStartV_adj (sortedVals pnts) eps j t h1 h2⟩
  rw [sortedVals_length]
  omega

theorem stabPerm_run_lt (pnts : List Point) (eps : ℚ) :
    ∀ (c : ℕ), c < pnts.length →
      ∀ a, runStartV (sortedVals pnts) eps c ≤ a → a < c →
        (stabPerm pnts eps).getD a 0 < (stabPerm pnts eps).getD c 0 := by
  intro c
  induction c with
  | zero => intro _ a _ ha; omega
  | succ k ih =>
      intro hc a h1 h2
      have hadjk : adjAt pnts eps k := by
        refine adjAt_of_run pnts eps hc (le_trans h1 (by omega)) ?_
        omega
      have hrseq : runStartV (sortedVals pnts) eps (k + 1) =
          runStartV (sortedVals pnts) eps k := by
        rw [runStartV, if_pos hadjk.2]
      have hk1 := stabPerm_adj_lt pnts eps hadjk
      rcases Nat.lt_or_ge a k with ha | ha
      · have := ih (by omega) a (by rw [← hrseq]; exact h1) ha
        omega
      · have : a = k := by omega
        rw [this]
        exact hk1

theorem stabPerm_run_le (pnts : List Point) (eps : ℚ) {a c : ℕ}
    (hc : c < pnts.length) (h1 : runStartV (sortedVals pnts) eps c ≤ a)
    (h2 : a ≤ c) :
    (stabPerm pnts eps).getD a 0 ≤ (stabPerm pnts eps).getD c 0 := by
  rcases Nat.lt_or_ge a c with h | h
  · exact Nat.le_of_lt (stabPerm_run_lt pnts eps c hc a h1 h)
  · have : a = c := by omega
    rw [this]

/-! The collapse scan: every original index is mapped to the stabilized
permutation entry at its run start. -/

theorem getD_set_self (l : List ℕ) (i v : ℕ) (h : i < l.length) :
    (l.set i v).getD i 0 = v := by
  rw [List.getD_eq_getElem?_getD, List.getElem?_set_self h]
  rfl

theorem getD_set_ne (l : List ℕ) (i j v : ℕ) (h : i ≠ j) :
    (l.set i v).getD j 0 = l.getD j 0 := by
  rw [List.getD_eq_getElem?_getD, List.getElem?_set_ne h,
    ← List.getD_eq_getElem?_getD]

theorem collapseScan_length (eps : ℚ) (sp : List ℕ) :
    ∀ (l : List Point) (k : ℕ) (idm : List ℕ),
      (collapseScan eps sp l k idm).length = idm.length := by
  intro l
  induction l with
  | nil => intro k idm; rfl
  | cons p t ih =>
      intro k idm
      cases t with
      | nil => rfl
      | cons q rest =>
          rw [collapseScan]
          rw [ih]
          split <;> simp [List.length_set]

theorem collapseScan_inv (pnts : List Point) (eps : ℚ) :
    ∀ (l : List Point) (k : ℕ) (idm : List ℕ),
      l = (sortedVals pnts).drop k →
      idm.length = pnts.length →
      (∀ j, j < pnts.length →
        idm.getD ((stabPerm pnts eps).getD j 0) 0 =
          (stabPerm pnts eps).getD
            (if j ≤ k then runStartV (sortedVals pnts) eps j else j) 0) →
      ∀ j, j < pnts.length →
        (collapseScan eps (stabPerm pnts eps) l k idm).getD
            ((stabPerm pnts eps).getD j 0) 0 =
          (stabPerm pnts eps).getD (runStartV (sortedVals pnts) eps j) 0 := by
  intro l
  induction l with
  | nil =>
      intro k idm hk hlen hinv j hj
      have hle : (sortedVals pnts).length ≤ k := List.drop_eq_nil_iff.mp hk.symm
      rw [sortedVals_length] at hle
      have h := hinv j hj
      rw [if_pos (by omega)] at h
      exact h
  | cons p t ih =>
      intro k idm hk hlen hinv j hj
      cases t with
      | nil =>
          have hlen2 : (sortedVals pnts).length = k + 1 := by
            have h1 := congrArg List.length hk
            simp [List.length_drop] at h1
            have h2 : ¬ (sortedVals pnts).length ≤ k := by
              intro hle
              rw [List.drop_eq_nil_iff.mpr hle] at hk
              exact List.cons_ne_nil p [] hk
            omega
          rw [sortedVals_length] at hlen2
          have h := hinv j hj
          rw [if_pos (by omega)] at h
          exact h
      | cons q rest =>
          obtain ⟨htail, hp, hq, hlenk⟩ := drop_cons_cons_facts hk
          rw [sortedVals_length] at hlenk
          rw [collapseScan]
          set idm2 := if maxNormDist q p ≤ eps then
            idm.set ((stabPerm pnts eps).getD (k + 1) 0)
              (idm.getD ((stabPerm pnts eps).getD k 0) 0)
            else idm with hidm2
          have hlen2 : idm2.length = pnts.length := by
            rw [hidm2]
            split <;> simp [List.length_set, hlen]
          refine ih (k + 1) idm2 htail.symm hlen2 ?_ j hj
          intro j2 hj2
          have hspj2 : (stabPerm pnts eps).getD j2 0 < pnts.length :=
            stabPerm_getD_lt pnts eps hj2
          by_cases hc : maxNormDist q p ≤ eps
          · have hrseq : runStartV (sortedVals pnts) eps (k + 1) =
                runStartV (sortedVals pnts) eps k := by
              rw [runStartV, hp, hq, if_pos hc]
            rw [hidm2, if_pos hc]
            by_cases hjk : j2 = k + 1
            · subst hjk
              rw [getD_set_self _ _ _ (by rw [hlen]; exact hspj2)]
              have h1 := hinv k (by omega)
              rw [if_pos (Nat.le_refl k)] at h1
              rw [h1, if_pos (Nat.le_refl (k + 1)), hrseq]
            · have hne : (stabPerm pnts eps).getD (k + 1) 0 ≠
                  (stabPerm pnts eps).getD j2 0 := by
                intro heq
                exact hjk (stabPerm_getD_inj pnts eps hlenk hj2 heq).symm
              rw [getD_set_ne _ _ _ _ hne]
              have h1 := hinv j2 hj2
              rcases Nat.lt_or_ge k j2 with hlt | hge
              · rw [if_neg (by omega)] at h1
                rw [h1, if_neg (by omega)]
              · rw [if_pos (by omega)] at h1
                rw [h1, if_pos (by omega)]
          · have hrseq : runStartV (sortedVals pnts) eps (k + 1) = k + 1 := by
              rw [runStartV, hp, hq, if_neg hc]
            rw [hidm2, if_neg hc]
            have h1 := hinv j2 hj2
            by_cases hjk : j2 = k + 1
            · subst hjk
              rw [if_neg (by omega)] at h1
              rw [h1, if_pos (Nat.le_refl (k + 1)), hrseq]
            · rcases Nat.lt_or_ge k j2 with hlt | hge
              · rw [if_neg (by omega)] at h1
                rw [h1, if_neg (by omega)]
              · rw [if_pos (by omega)] at h1
                rw [h1, if_pos (by omega)]

theorem collapsedMap_length (pnts : List Point) (eps : ℚ) :
    (collapsedMap pnts eps).length = pnts.length := by
  rw [collapsedMap, collapseScan_length]
  simp

theorem collapsedMap_getD_sp (pnts : List Point) (eps : ℚ) {j : ℕ}
    (hj : j < pnts.length) :
    (collapsedMap pnts eps).getD ((stabPerm pnts eps).getD j 0) 0 =
      (stabPerm pnts eps).getD (runStartV (sortedVals pnts) eps j) 0 := by
  rw [collapsedMap]
  refine collapseScan_inv pnts eps (sortedVals pnts) 0 _ (by simp)
    (by simp) ?_ j hj
  intro j2 hj2
  have hsp : (stabPerm pnts eps).getD j2 0 < pnts.length :=
    stabPerm_getD_lt pnts eps hj2
  have hr : (List.range pnts.length).getD ((stabPerm pnts eps).getD j2 0) 0
      = (stabPerm pnts eps).getD j2 0 := by
    rw [List.getD_eq_getElem?_getD,
      List.getElem?_eq_getElem (by simpa using hsp)]
    simp
  rw [hr]
  by_cases h0 : j2 ≤ 0
  · have : j2 = 0 := by omega
    subst this
    rw [if_pos (Nat.le_refl 0)]
    rfl
  · rw [if_neg h0]

/-! Derived properties of the collapsed id map. -/

theorem stabPerm_surj (pnts : List Point) (eps : ℚ) {i : ℕ}
    (hi : i < pnts.length) :
    ∃ j, j < pnts.length ∧ (stabPerm pnts eps).getD j 0 = i := by
  have hmem : i ∈ stabPerm pnts eps :=
    (stabPerm_perm_range pnts eps).mem_iff.mpr (List.mem_range.mpr hi)
  obtain ⟨m, hm, hval⟩ := List.mem_iff_getElem.mp hmem
  refine ⟨m, by rwa [stabPerm_length] at hm, ?_⟩
  rw [List.getD_eq_getElem?_getD, List.getElem?_eq_getElem hm, hval]
  rfl

theorem collapsedMap_le (pnts : List Point) (eps : ℚ) {i : ℕ}
    (hi : i < pnts.length) : (collapsedMap pnts eps).getD i 0 ≤ i := by
  obtain ⟨j, hj, rfl⟩ := stabPerm_surj pnts eps hi
  rw [collapsedMap_getD_sp pnts eps hj]
  exact stabPerm_run_le pnts eps hj (Nat.le_refl _)
    (runStartV_le (sortedVals pnts) eps j)

theorem collapsedMap_idem (pnts : List Point) (eps : ℚ) {i : ℕ}
    (hi : i < pnts.length) :
    (collapsedMap pnts eps).getD ((collapsedMap pnts eps).getD i 0) 0 =
      (collapsedMap pnts eps).getD i 0 := by
  obtain ⟨j, hj, rfl⟩ := stabPerm_surj pnts eps hi
  rw [collapsedMap_getD_sp pnts eps hj]
  have hrs : runStartV (sortedVals pnts) eps j < pnts.length :=
    Nat.lt_of_le_of_lt (runStartV_le (sortedVals pnts) eps j) hj
  rw [collapsedMap_getD_sp pnts eps hrs, runStartV_idem]

theorem collapsedMap_fix_iff (pnts : List Point) (eps : ℚ) {j : ℕ}
    (hj : j < pnts.length) :
    (collapsedMap pnts eps).getD ((stabPerm pnts eps).getD j 0) 0 =
        (stabPerm pnts eps).getD j 0 ↔
      runStartV (sortedVals pnts) eps j = j := by
  rw [collapsedMap_getD_sp pnts eps hj]
  constructor
  · intro h
    exact stabPerm_getD_inj pnts eps
      (Nat.lt_of_le_of_lt (runStartV_le (sortedVals pnts) eps j) hj) hj h
  · intro h
    rw [h]

/-! The renumbering pass. -/

theorem getD_default_irrel {α : Type} (l : List α) (i : ℕ) (d1 d2 : α)
    (h : i < l.length) : l.getD i d1 = l.getD i d2 := by
  rw [List.getD_eq_getElem?_getD, List.getD_eq_getElem?_getD,
    List.getElem?_eq_getElem h]
  rfl

theorem getD_append_left {α : Type} (l1 l2 : List α) (i : ℕ) (d : α)
    (h : i < l1.length) : (l1 ++ l2).getD i d = l1.getD i d := by
  rw [List.getD_eq_getElem?_getD, List.getElem?_append_left h,
    ← List.getD_eq_getElem?_getD]

theorem getD_append_self {α : Type} (l1 : List α) (x : α) (d : α) :
    (l1 ++ [x]).getD l1.length d = x := by
  rw [List.getD_eq_getElem?_getD,
    List.getElem?_append_right (Nat.le_refl _)]
  simp

theorem rankBelow_succ (idm : List ℕ) (k : ℕ) :
    rankBelow idm (k + 1) =
      rankBelow idm k + (if idm.getD k 0 = k then 1 else 0) := by
  rw [rankBelow, rankBelow, List.range_succ, List.filter_append]
  rw [List.length_append]
  congr 1
  split
  · next h =>
      have h2 : idm[k]?.getD 0 = k := by
        rw [← List.getD_eq_getElem?_getD]
        exact h
      simp [List.filter_cons, h2]
  · next h =>
      have h2 : ¬ idm[k]?.getD 0 = k := by
        rw [← List.getD_eq_getElem?_getD]
        exact h
      simp [List.filter_cons, h2]

theorem rankBelow_mono (idm : List ℕ) {a b : ℕ} (h : a ≤ b) :
    rankBelow idm a ≤ rankBelow idm b := by
  induction b with
  | zero => have : a = 0 := by omega
            rw [this]
  | succ m ih =>
      rcases Nat.lt_or_ge a (m + 1) with h2 | h2
      · have := ih (by omega)
        rw [rankBelow_succ]
        split <;> omega
      · have : a = m + 1 := by omega
        rw [this]

theorem rankBelow_lt_cntFix (idm : List ℕ) {v : ℕ} (hv : v < idm.length)
    (hfix : idm.getD v 0 = v) : rankBelow idm v < cntFix idm := by
  have hstep : rankBelow idm (v + 1) = rankBelow idm v + 1 := by
    rw [rankBelow_succ, if_pos hfix]
  have hmono := rankBelow_mono idm (show v + 1 ≤ idm.length by omega)
  have hcnt : cntFix idm = rankBelow idm idm.length := rfl
  omega

theorem renumberAux_length (idm : List ℕ) :
    ∀ (rest : List ℕ) (k cnt : ℕ) (acc : List ℕ),
      (renumberAux idm rest k cnt acc).length = acc.length + rest.length := by
  intro rest
  induction rest with
  | nil => intro k cnt acc; simp [renumberAux]
  | cons v t ih =>
      intro k cnt acc
      rw [renumberAux]
      split <;> rw [ih] <;> simp <;> omega

theorem renumber_length (idm : List ℕ) :
    (renumber idm).length = idm.length := by
  rw [renumber, renumberAux_length]
  simp

theorem renumberAux_spec (idm : List ℕ)
    (hle : ∀ i, i < idm.length → idm.getD i 0 ≤ i)
    (hidem : ∀ i, i < idm.length →
      idm.getD (idm.getD i 0) 0 = idm.getD i 0) :
    ∀ (rest : List ℕ) (k : ℕ) (acc : List ℕ),
      rest = idm.drop k → k ≤ idm.length → acc.length = k →
      (∀ i, i < k → acc.getD i 0 = rankBelow idm (idm.getD i 0)) →
      ∀ i, i < idm.length →
        (renumberAux idm rest k (rankBelow idm k) acc).getD i 0 =
          rankBelow idm (idm.getD i 0) := by
  intro rest
  induction rest with
  | nil =>
      intro k acc hk hkle hlen hinv i hi
      have : idm.length ≤ k := List.drop_eq_nil_iff.mp hk.symm
      have hki : k = idm.length := by omega
      rw [renumberAux]
      exact hinv i (by omega)
  | cons v t ih =>
      intro k acc hk hkle hlen hinv i hi
      have hklt : k < idm.length := by
        by_contra hge
        rw [List.drop_eq_nil_iff.mpr (by omega)] at hk
        exact List.cons_ne_nil v t hk
      have hv : idm.getD k 0 = v := by
        have h1 : idm[k]? = some v := by
          rw [← List.head?_drop, ← hk]
          rfl
        rw [List.getD_eq_getElem?_getD, h1]
        rfl
      have ht : t = idm.drop (k + 1) := by
        rw [← List.tail_drop, ← hk]
        rfl
      rw [renumberAux]
      by_cases hvk : v = k
      · rw [if_pos hvk]
        have hcnt : rankBelow idm k + 1 = rankBelow idm (k + 1) := by
          rw [rankBelow_succ, if_pos (by rw [hv, hvk])]
        rw [hcnt]
        refine ih (k + 1) (acc ++ [rankBelow idm k]) ht (by omega)
          (by simp [hlen]) ?_ i hi
        intro i2 hi2
        rcases Nat.lt_or_ge i2 k with h2 | h2
        · rw [getD_append_left _ _ _ _ (by omega)]
          exact hinv i2 h2
        · have hieq : i2 = k := by omega
          rw [hieq, ← hlen, getD_append_self, hlen, hv, hvk]
      · rw [if_neg hvk]
        have hvlt : v < k := by
          have := hle k hklt
          rw [hv] at this
          omega
        have hcnt : rankBelow idm k = rankBelow idm (k + 1) := by
          rw [rankBelow_succ, if_neg (by rw [hv]; exact hvk)]
          omega
        rw [hcnt]
        refine ih (k + 1)
          (acc ++ [acc.getD v (idm.getD v 0)]) ht (by omega)
          (by simp [hlen]) ?_ i hi
        intro i2 hi2
        rcases Nat.lt_or_ge i2 k with h2 | h2
        · rw [getD_append_left _ _ _ _ (by omega)]
          exact hinv i2 h2
        · have hieq : i2 = k := by omega
          rw [hieq, ← hlen, getD_append_self, hlen]
          have hacc : acc.getD v (idm.getD v 0) = acc.getD v 0 :=
            getD_default_irrel acc v _ _ (by omega)
          rw [hacc, hinv v hvlt]
          have hidv : idm.getD v 0 = v := by
            have h3 := hidem k hklt
            rw [hv] at h3
            exact h3
          rw [hidv, hv]

theorem renumber_getD (idm : List ℕ)
    (hle : ∀ i, i < idm.length → idm.getD i 0 ≤ i)
    (hidem : ∀ i, i < idm.length →
      idm.getD (idm.getD i 0) 0 = idm.getD i 0)
    {i : ℕ} (hi : i < idm.length) :
    (renumber idm).getD i 0 = rankBelow idm (idm.getD i 0) := by
  have h0 : rankBelow idm 0 = 0 := rfl
  rw [renumber, ← h0]
  exact renumberAux_spec idm hle hidem idm 0 [] rfl (by omega) rfl
    (by intro i2 hi2; omega) i hi

theorem renumber_getD_lt (idm : List ℕ)
    (hle : ∀ i, i < idm.length → idm.getD i 0 ≤ i)
    (hidem : ∀ i, i < idm.length →
      idm.getD (idm.getD i 0) 0 = idm.getD i 0)
    {i : ℕ} (hi : i < idm.length) :
    (renumber idm).getD i 0 < cntFix idm := by
  rw [renumber_getD idm hle hidem hi]
  refine rankBelow_lt_cntFix idm ?_ ?_
  · exact Nat.lt_of_le_of_lt (hle i hi) hi
  · exact hidem i hi

/-! The removal pass. -/

theorem filter_shift_length (p : ℕ → Bool) :
    ∀ (m k : ℕ),
      ((List.range (m + 1)).filter (fun j => p (k + j))).length =
        (if p k then 1 else 0) +
          ((List.range m).filter (fun j => p (k + 1 + j))).length := by
  intro m k
  have hmap : (List.map Nat.succ (List.range m)).filter (fun j => p (k + j))
      = List.map Nat.succ ((List.range m).filter
          (fun j => p (k + 1 + j))) := by
    rw [List.filter_map]
    congr 1
    refine List.filter_congr ?_
    intro x _
    simp only [Function.comp_apply]
    congr 1
    omega
  rw [List.range_succ_eq_map, List.filter_cons, hmap]
  simp only [Nat.add_zero, List.length_map]
  split <;> rename_i h <;> simp [h] <;> omega

theorem filter_enumFrom_getD {α : Type} (d : α) (p : ℕ → Bool) :
    ∀ (l : List α) (k i : ℕ), i < l.length → p (k + i) = true →
      ((((List.enumFrom k l).filter (fun e => p e.1)).map Prod.snd).getD
        (((List.range i).filter (fun m => p (k + m))).length) d) =
        l.getD i d := by
  intro l
  induction l with
  | nil =>
      intro k i hi _
      simp at hi
  | cons x t ih =>
      intro k i hi hp
      rw [List.enumFrom_cons, List.filter_cons]
      cases i with
      | zero =>
          rw [Nat.add_zero] at hp
          rw [if_pos (by simpa using hp)]
          simp
      | succ m =>
          have hcnt := filter_shift_length p m k
          by_cases hpk : p k = true
          · rw [if_pos (by simpa using hpk)]
            have hidx : ((List.range (m + 1)).filter
                (fun j => p (k + j))).length =
                1 + ((List.range m).filter
                  (fun j => p (k + 1 + j))).length := by
              rw [hcnt, if_pos hpk]
            rw [hidx]
            simp only [List.map_cons]
            rw [Nat.add_comm 1 _, List.getD_cons_succ, List.getD_cons_succ]
            exact ih (k + 1) m (by simpa using hi)
              (by rw [show k + 1 + m = k + (m + 1) by omega]; exact hp)
          · rw [if_neg (by simpa using hpk)]
            have hidx : ((List.range (m + 1)).filter
                (fun j => p (k + j))).length =
                ((List.range m).filter (fun j => p (k + 1 + j))).length := by
              rw [hcnt, if_neg hpk]
              omega
            rw [hidx, List.getD_cons_succ]
            exact ih (k + 1) m (by simpa using hi)
              (by rw [show k + 1 + m = k + (m + 1) by omega]; exact hp)

theorem getD_eq_getElem {α : Type} (l : List α) (i : ℕ) (d : α)
    (h : i < l.length) : l.getD i d = l[i] := by
  rw [List.getD_eq_getElem?_getD, List.getElem?_eq_getElem h]
  rfl

theorem removeDoubles_length (resto : List Point) (idm : List ℕ)
    (hle : ∀ k, k < idm.length → idm.getD k 0 ≤ k)
    (hlen : resto.length = idm.length) :
    (removeDoubles resto idm).length = cntFix idm := by
  rw [removeDoubles, List.length_map]
  have h1 : (List.range resto.length).filter
        (fun k => decide (¬ idm.getD k 0 < k)) =
      ((resto.enum.filter
        (fun e => decide (¬ idm.getD e.1 0 < e.1))).map Prod.fst) := by
    rw [← List.enum_map_fst resto, List.filter_map]
    rfl
  have h2 : (resto.enum.filter
      (fun e => decide (¬ idm.getD e.1 0 < e.1))).length =
      ((List.range resto.length).filter
        (fun k => decide (¬ idm.getD k 0 < k))).length := by
    rw [h1, List.length_map]
  rw [h2, cntFix, hlen]
  congr 1
  refine List.filter_congr ?_
  intro x hx
  have hxlt : x < idm.length := List.mem_range.mp hx
  have := hle x hxlt
  rw [decide_eq_decide]
  omega

theorem removeDoubles_getD (resto : List Point) (idm : List ℕ)
    (hle : ∀ k, k < idm.length → idm.getD k 0 ≤ k)
    (hlen : resto.length = idm.length) {i : ℕ} (hi : i < idm.length)
    (hfix : idm.getD i 0 = i) :
    (removeDoubles resto idm).getD (rankBelow idm i) pz =
      resto.getD i pz := by
  have h := filter_enumFrom_getD pz
    (fun k => decide (¬ idm.getD k 0 < k)) resto 0 i (by omega)
    (by
      simp only [Nat.zero_add, decide_eq_true_eq]
      rw [hfix]
      omega)
  have hidx : ((List.range i).filter
      (fun m => decide (¬ idm.getD (0 + m) 0 < 0 + m))).length =
      rankBelow idm i := by
    rw [rankBelow]
    congr 1
    refine List.filter_congr ?_
    intro x hx
    have hxlt : x < idm.length := by
      have := List.mem_range.mp hx
      omega
    have := hle x hxlt
    simp only [Nat.zero_add]
    rw [decide_eq_decide]
    omega
  rw [hidx] at h
  rw [removeDoubles, List.enum_eq_enumFrom]
  exact h

/-! The reverse permutation: the restored vector holds the sorted value
`sv[t]` at position `perm[t]`. -/

instance : IsAntisymm ℕ (· < ·) :=
  ⟨fun _ _ h1 h2 => absurd h2 (Nat.lt_asymm h1)⟩

theorem restoredPnts_length (pnts : List Point) (eps : ℚ) :
    (restoredPnts pnts eps).length = pnts.length := by
  rw [restoredPnts, List.length_map, sortByIdx, List.length_insertionSort,
    List.length_zip, stabPerm_length, sortedVals_length]
  simp

theorem sortByIdx_fst_eq_range (pnts : List Point) (eps : ℚ) :
    (sortByIdx ((stabPerm pnts eps).zip (sortedVals pnts))).map Prod.fst =
      List.range pnts.length := by
  have hperm : (sortByIdx ((stabPerm pnts eps).zip (sortedVals pnts))).Perm
      ((stabPerm pnts eps).zip (sortedVals pnts)) :=
    List.perm_insertionSort idxLe _
  have hzipfst : ((stabPerm pnts eps).zip (sortedVals pnts)).map Prod.fst =
      stabPerm pnts eps :=
    List.map_fst_zip _ _ (by rw [stabPerm_length, sortedVals_length])
  have hperm2 : ((sortByIdx ((stabPerm pnts eps).zip
      (sortedVals pnts))).map Prod.fst).Perm (List.range pnts.length) := by
    refine (hperm.map Prod.fst).trans ?_
    rw [hzipfst]
    exact stabPerm_perm_range pnts eps
  have hsorted : List.Sorted idxLe
      (sortByIdx ((stabPerm pnts eps).zip (sortedVals pnts))) :=
    List.sorted_insertionSort idxLe _
  have hsorted2 : List.Sorted (· ≤ ·)
      ((sortByIdx ((stabPerm pnts eps).zip
        (sortedVals pnts))).map Prod.fst) :=
    List.pairwise_map.mpr hsorted
  have hnd : ((sortByIdx ((stabPerm pnts eps).zip
      (sortedVals pnts))).map Prod.fst).Nodup :=
    hperm2.nodup_iff.mpr (List.nodup_range _)
  exact List.eq_of_perm_of_sorted hperm2 (hsorted2.lt_of_le hnd)
    (List.sorted_lt_range _)

theorem restoredPnts_getD (pnts : List Point) (eps : ℚ) {t : ℕ}
    (ht : t < pnts.length) :
    (restoredPnts pnts eps).getD ((stabPerm pnts eps).getD t 0) pz =
      (sortedVals pnts).getD t pz := by
  have hlsp : t < (stabPerm pnts eps).length := by
    rw [stabPerm_length]
    exact ht
  have hlsv : t < (sortedVals pnts).length := by
    rw [sortedVals_length]
    exact ht
  have hlz : t < ((stabPerm pnts eps).zip (sortedVals pnts)).length := by
    rw [List.length_zip]
    omega
  have hpair : ((stabPerm pnts eps).zip (sortedVals pnts))[t] =
      ((stabPerm pnts eps).getD t 0, (sortedVals pnts).getD t pz) := by
    rw [List.getElem_zip, getD_eq_getElem _ _ _ hlsp,
      getD_eq_getElem _ _ _ hlsv]
  have hmem : ((stabPerm pnts eps).getD t 0,
      (sortedVals pnts).getD t pz) ∈
      sortByIdx ((stabPerm pnts eps).zip (sortedVals pnts)) := by
    refine (List.perm_insertionSort idxLe _).mem_iff.mpr ?_
    rw [← hpair]
    exact List.getElem_mem hlz
  obtain ⟨m, hm, hLm⟩ := List.mem_iff_getElem.mp hmem
  have hLlen : (sortByIdx ((stabPerm pnts eps).zip
      (sortedVals pnts))).length = pnts.length := by
    rw [sortByIdx, List.length_insertionSort, List.length_zip,
      stabPerm_length, sortedVals_length]
    simp
  have hmlt2 : m < pnts.length := by
    rw [hLlen] at hm
    exact hm
  have hmfst : m = (stabPerm pnts eps).getD t 0 := by
    have h1 : ((sortByIdx ((stabPerm pnts eps).zip
        (sortedVals pnts))).map Prod.fst)[m]? =
        some ((stabPerm pnts eps).getD t 0) := by
      rw [List.getElem?_eq_getElem (by simpa using hm), List.getElem_map,
        hLm]
    rw [sortByIdx_fst_eq_range pnts eps] at h1
    have h2 : (List.range pnts.length)[m]? = some m := by
      rw [List.getElem?_eq_getElem (by simpa using hmlt2),
        List.getElem_range]
    rw [h2] at h1
    exact Option.some_inj.mp h1
  rw [restoredPnts]
  have hmlt : m < (sortByIdx ((stabPerm pnts eps).zip
      (sortedVals pnts))).length := hm
  rw [← hmfst, getD_eq_getElem _ _ _ (by simpa using hmlt),
    List.getElem_map, hLm]

/-! Bundled facts about the collapsed map in the form the renumbering and
removal lemmas expect. -/

theorem collapsedMap_hle (pnts : List Point) (eps : ℚ) :
    ∀ i, i < (collapsedMap pnts eps).length →
      (collapsedMap pnts eps).getD i 0 ≤ i := by
  intro i hi
  rw [collapsedMap_length] at hi
  exact collapsedMap_le pnts eps hi

theorem collapsedMap_hidem (pnts : List Point) (eps : ℚ) :
    ∀ i, i < (collapsedMap pnts eps).length →
      (collapsedMap pnts eps).getD ((collapsedMap pnts eps).getD i 0) 0 =
        (collapsedMap pnts eps).getD i 0 := by
  intro i hi
  rw [collapsedMap_length] at hi
  exact collapsedMap_idem pnts eps hi

theorem makePntsUnique_fst (pnts : List Point) (eps : ℚ) :
    (makePntsUnique pnts eps).1 =
      removeDoubles (restoredPnts pnts eps) (collapsedMap pnts eps) := rfl

theorem makePntsUnique_snd (pnts : List Point) (eps : ℚ) :
    (makePntsUnique pnts eps).2 = renumber (collapsedMap pnts eps) := rfl

theorem makePntsUnique_fst_length (pnts : List Point) (eps : ℚ) :
    (makePntsUnique pnts eps).1.length = cntFix (collapsedMap pnts eps) := by
  rw [makePntsUnique_fst]
  refine removeDoubles_length _ _ (collapsedMap_hle pnts eps) ?_
  rw [restoredPnts_length, collapsedMap_length]

theorem makePntsUnique_snd_length (pnts : List Point) (eps : ℚ) :
    (makePntsUnique pnts eps).2.length = pnts.length := by
  rw [makePntsUnique_snd, renumber_length, collapsedMap_length]

theorem makePntsUnique_snd_getD (pnts : List Point) (eps : ℚ) {i : ℕ}
    (hi : i < pnts.length) :
    (makePntsUnique pnts eps).2.getD i 0 =
      rankBelow (collapsedMap pnts eps)
        ((collapsedMap pnts eps).getD i 0) := by
  rw [makePntsUnique_snd]
  exact renumber_getD _ (collapsedMap_hle pnts eps)
    (collapsedMap_hidem pnts eps) (by rwa [collapsedMap_length])

theorem makePntsUnique_snd_lt (pnts : List Point) (eps : ℚ) {i : ℕ}
    (hi : i < pnts.length) :
    (makePntsUnique pnts eps).2.getD i 0 < (makePntsUnique pnts eps).1.length := by
  rw [makePntsUnique_snd, makePntsUnique_fst_length]
  exact renumber_getD_lt _ (collapsedMap_hle pnts eps)
    (collapsedMap_hidem pnts eps) (by rwa [collapsedMap_length])

/-! Claim C1 amended: every sorted-adjacent within-tolerance pair is
merged to one canonical id (and a canonical point is removed), but
pairwise uniqueness over all canonical pairs fails (see the
counterexample). -/

/-- C1 amended: if sorted positions `k` and `k+1` are within tolerance,
both original points receive the same canonical id in `pnt_id_map`, and
the canonical set is strictly smaller than the input. -/
theorem claim_C1_amended (pnts : List Point) (eps : ℚ) (k : ℕ)
    (hadj : adjAt pnts eps k) :
    (makePntsUnique pnts eps).2.getD ((stabPerm pnts eps).getD (k + 1) 0) 0 =
      (makePntsUnique pnts eps).2.getD ((stabPerm pnts eps).getD k 0) 0 ∧
    (makePntsUnique pnts eps).1.length < pnts.length := by
  have hk1 : k + 1 < pnts.length := by
    have := hadj.1
    rwa [sortedVals_length] at this
  have hk : k < pnts.length := by omega
  have hrs : runStartV (sortedVals pnts) eps (k + 1) =
      runStartV (sortedVals pnts) eps k := by
    rw [runStartV, if_pos hadj.2]
  have hcm1 : (collapsedMap pnts eps).getD
      ((stabPerm pnts eps).getD (k + 1) 0) 0 =
      (collapsedMap pnts eps).getD ((stabPerm pnts eps).getD k 0) 0 := by
    rw [collapsedMap_getD_sp pnts eps hk1, collapsedMap_getD_sp pnts eps hk,
      hrs]
  constructor
  · rw [makePntsUnique_snd_getD pnts eps (stabPerm_getD_lt pnts eps hk1),
      makePntsUnique_snd_getD pnts eps (stabPerm_getD_lt pnts eps hk), hcm1]
  · rw [makePntsUnique_fst_length]
    have hnonfix : (collapsedMap pnts eps).getD
        ((stabPerm pnts eps).getD (k + 1) 0) 0 ≠
        (stabPerm pnts eps).getD (k + 1) 0 := by
      rw [collapsedMap_getD_sp pnts eps hk1, hrs]
      intro heq
      have h1 : (stabPerm pnts eps).getD
          (runStartV (sortedVals pnts) eps k) 0 ≤
          (stabPerm pnts eps).getD k 0 :=
        stabPerm_run_le pnts eps hk (Nat.le_refl _)
          (runStartV_le (sortedVals pnts) eps k)
      have h2 := stabPerm_adj_lt pnts eps hadj
      omega
    have hmem : (stabPerm pnts eps).getD (k + 1) 0 ∈
        List.range pnts.length :=
      List.mem_range.mpr (stabPerm_getD_lt pnts eps hk1)
    have hlt : (((List.range pnts.length)).filter
        (fun m => decide ((collapsedMap pnts eps).getD m 0 = m))).length <
        (List.range pnts.length).length := by
      refine List.length_filter_lt_length_iff_exists.mpr ?_
      exact ⟨(stabPerm pnts eps).getD (k + 1) 0, hmem, by
        simpa using hnonfix⟩
    have : cntFix (collapsedMap pnts eps) =
        (((List.range pnts.length)).filter
          (fun m => decide ((collapsedMap pnts eps).getD m 0 = m))).length := by
      rw [cntFix, collapsedMap_length]
    rw [this]
    simpa using hlt

/-- C1 amended witness: a concrete adjacent duplicate pair. -/
theorem claim_C1_amended_witness :
    adjAt [⟨0, 0, 0⟩, ⟨0, 0, mkRat 1 10000⟩] (mkRat 1 100) 0 ∧
    (makePntsUnique [⟨0, 0, 0⟩, ⟨0, 0, mkRat 1 10000⟩]
      (mkRat 1 100)).1.length < 2 :=
  ⟨by decide,
    (claim_C1_amended [⟨0, 0, 0⟩, ⟨0, 0, mkRat 1 10000⟩] (mkRat 1 100) 0
      (by decide)).2⟩

/-! Claim C3 amended: a tolerance-run collapses onto a single canonical
id, determined by the run member with the least original index, while the
surviving stored value is the run's first point in sorted order. -/

/-- C3 amended: for every sorted position `j`, (a) the whole run of `j`
shares one canonical id, (b) the run start carries the least original
index of the run, and (c) the stored canonical value for the run is the
sorted value at the run start — the lexicographically first member, not
necessarily the value of the least-index member. -/
theorem claim_C3_amended (pnts : List Point) (eps : ℚ) (j : ℕ)
    (hj : j < pnts.length) :
    (makePntsUnique pnts eps).2.getD ((stabPerm pnts eps).getD j 0) 0 =
      (makePntsUnique pnts eps).2.getD
        ((stabPerm pnts eps).getD (runStart pnts eps j) 0) 0 ∧
    (∀ t, t < pnts.length → runStart pnts eps t = runStart pnts eps j →
      (stabPerm pnts eps).getD (runStart pnts eps j) 0 ≤
        (stabPerm pnts eps).getD t 0) ∧
    (makePntsUnique pnts eps).1.getD
        ((makePntsUnique pnts eps).2.getD
          ((stabPerm pnts eps).getD j 0) 0) pz =
      (sortedVals pnts).getD (runStart pnts eps j) pz := by
  have hrsj : runStart pnts eps j < pnts.length :=
    Nat.lt_of_le_of_lt (runStartV_le (sortedVals pnts) eps j) hj
  have hcmj : (collapsedMap pnts eps).getD
      ((stabPerm pnts eps).getD j 0) 0 =
      (stabPerm pnts eps).getD (runStart pnts eps j) 0 :=
    collapsedMap_getD_sp pnts eps hj
  have hcmrs : (collapsedMap pnts eps).getD
      ((stabPerm pnts eps).getD (runStart pnts eps j) 0) 0 =
      (stabPerm pnts eps).getD (runStart pnts eps j) 0 := by
    rw [collapsedMap_getD_sp pnts eps hrsj]
    unfold runStart
    rw [runStartV_idem]
  refine ⟨?_, ?_, ?_⟩
  · rw [makePntsUnique_snd_getD pnts eps (stabPerm_getD_lt pnts eps hj),
      makePntsUnique_snd_getD pnts eps (stabPerm_getD_lt pnts eps hrsj),
      hcmj, hcmrs]
  · intro t ht hrt
    have := stabPerm_run_le pnts eps ht (Nat.le_refl _)
      (runStartV_le (sortedVals pnts) eps t)
    rw [← hrt]
    exact this
  · rw [makePntsUnique_snd_getD pnts eps (stabPerm_getD_lt pnts eps hj),
      hcmj, makePntsUnique_fst]
    have hfix : (collapsedMap pnts eps).getD
        ((stabPerm pnts eps).getD (runStart pnts eps j) 0) 0 =
        (stabPerm pnts eps).getD (runStart pnts eps j) 0 := hcmrs
    rw [removeDoubles_getD _ _ (collapsedMap_hle pnts eps)
      (by rw [restoredPnts_length, collapsedMap_length])
      (by rw [collapsedMap_length]
          exact stabPerm_getD_lt pnts eps hrsj) hfix]
    exact restoredPnts_getD pnts eps hrsj

/-- C3 amended witness: the two-point run of the counterexample. -/
theorem claim_C3_amended_witness :
    (1 < ([⟨0, 0, mkRat 1 10000⟩, ⟨0, 0, 0⟩] : List Point).length) ∧
    (makePntsUnique [⟨0, 0, mkRat 1 10000⟩, ⟨0, 0, 0⟩] (mkRat 1 100)).1.getD
        ((makePntsUnique [⟨0, 0, mkRat 1 10000⟩, ⟨0, 0, 0⟩]
          (mkRat 1 100)).2.getD
          ((stabPerm [⟨0, 0, mkRat 1 10000⟩, ⟨0, 0, 0⟩]
            (mkRat 1 100)).getD 1 0) 0) pz =
      (sortedVals [⟨0, 0, mkRat 1 10000⟩, ⟨0, 0, 0⟩]).getD
        (runStart [⟨0, 0, mkRat 1 10000⟩, ⟨0, 0, 0⟩] (mkRat 1 100) 1) pz :=
  ⟨by decide,
    (claim_C3_amended [⟨0, 0, mkRat 1 10000⟩, ⟨0, 0, 0⟩] (mkRat 1 100) 1
      (by decide)).2.2⟩

/-! Claim C4 amended: remap accounting and validity across construction
and arbitrary insert sequences. -/

theorem push_back_named_none (v : PointVec) (p : Point) :
    push_back_named v p none = (push_back v p).1 := rfl

theorem push_back_step (v : PointVec) (p : Point)
    (hinv : ∀ x ∈ v.pnt_id_map, x < v.data_vec.length) :
    (∀ x ∈ (push_back v p).1.pnt_id_map,
      x < (push_back v p).1.data_vec.length) ∧
    (push_back v p).1.pnt_id_map.length = v.pnt_id_map.length + 1 := by
  cases hfind : v.data_vec.findIdx?
      (fun q => decide (maxNormDist q p ≤ v.rel_eps)) with
  | some i =>
      rw [push_back_found hfind]
      refine ⟨?_, by simp⟩
      intro x hx
      simp only [List.mem_append, List.mem_singleton] at hx
      rcases hx with hx | rfl
      · exact hinv x hx
      · exact (findIdx?_some_spec pz hfind).1
  | none =>
      rw [push_back_new hfind]
      refine ⟨?_, by simp⟩
      intro x hx
      simp only [List.mem_append, List.mem_singleton] at hx
      rw [List.length_append]
      rcases hx with hx | rfl
      · have := hinv x hx
        simp
        omega
      · simp

theorem applyOp_step (v : PointVec) (op : GeoOp)
    (hinv : ∀ x ∈ v.pnt_id_map, x < v.data_vec.length) :
    (∀ x ∈ (applyOp v op).pnt_id_map,
      x < (applyOp v op).data_vec.length) ∧
    (applyOp v op).pnt_id_map.length =
      v.pnt_id_map.length + (if opAccepted v op then 1 else 0) := by
  cases op with
  | insertPnt p =>
      have h := push_back_step v p hinv
      exact ⟨h.1, by rw [applyOp, h.2]; rfl⟩
  | insertNamed p nm =>
      cases nm with
      | none =>
          have h := push_back_step v p hinv
          refine ⟨?_, ?_⟩
          · rw [applyOp, push_back_named_none]
            exact h.1
          · rw [applyOp, push_back_named_none, h.2]
            rfl
      | some nm =>
          by_cases hf : (v.name_id_map.find? (fun e => e.1 == nm)).isSome
          · have hrej : push_back_named v p (some nm) =
                { v with
                    id_to_name_map := v.id_to_name_map ++ [""]
                    warns := v.warns + 1 } := by
              simp [push_back_named, hf]
            refine ⟨?_, ?_⟩
            · rw [applyOp, hrej]
              exact hinv
            · rw [applyOp, hrej]
              simp [opAccepted, hf]
          · cases hfind : v.data_vec.findIdx?
                (fun q => decide (maxNormDist q p ≤ v.rel_eps)) with
            | some i =>
                have hmain : push_back_named v p (some nm) =
                    { v with
                        pnt_id_map := v.pnt_id_map ++ [i]
                        name_id_map := insertName v.name_id_map nm i
                        id_to_name_map := v.id_to_name_map ++ [nm] } := by
                  simp [push_back_named, hf, uniqueInsert, hfind]
                refine ⟨?_, ?_⟩
                · rw [applyOp, hmain]
                  intro x hx
                  simp only [List.mem_append, List.mem_singleton] at hx
                  rcases hx with hx | rfl
                  · exact hinv x hx
                  · exact (findIdx?_some_spec pz hfind).1
                · rw [applyOp, hmain]
                  simp [opAccepted, hf]
            | none =>
                have hmain : push_back_named v p (some nm) =
                    { v with
                        data_vec := v.data_vec ++ [p]
                        aabb := aabbUpdate v.aabb p
                        pnt_id_map := v.pnt_id_map ++ [v.data_vec.length]
                        name_id_map := insertName v.name_id_map nm
                          v.data_vec.length
                        id_to_name_map := v.id_to_name_map ++ [nm] } := by
                  simp [push_back_named, hf, uniqueInsert, hfind]
                refine ⟨?_, ?_⟩
                · rw [applyOp, hmain]
                  intro x hx
                  simp only [List.mem_append, List.mem_singleton] at hx
                  rw [List.length_append]
                  rcases hx with hx | rfl
                  · have := hinv x hx
                    simp
                    omega
                  · simp
                · rw [applyOp, hmain]
                  simp [opAccepted, hf]

theorem applyOps_spec (ops : List GeoOp) :
    ∀ (v : PointVec), (∀ x ∈ v.pnt_id_map, x < v.data_vec.length) →
      (∀ x ∈ (applyOps v ops).pnt_id_map,
        x < (applyOps v ops).data_vec.length) ∧
      (applyOps v ops).pnt_id_map.length =
        v.pnt_id_map.length + acceptedCount v ops := by
  induction ops with
  | nil => intro v hinv; exact ⟨hinv, by simp [applyOps, acceptedCount]⟩
  | cons op rest ih =>
      intro v hinv
      have hstep := applyOp_step v op hinv
      have hrest := ih (applyOp v op) hstep.1
      have h1 : applyOps v (op :: rest) = applyOps (applyOp v op) rest := rfl
      rw [h1]
      refine ⟨hrest.1, ?_⟩
      rw [hrest.2, hstep.2, acceptedCount]
      omega

theorem mkPointVec_remap_valid (pnts : List Point)
    (nmap : List (String × ℕ)) (eps : ℚ) :
    (mkPointVec pnts nmap eps).pnt_id_map.length = pnts.length ∧
    ∀ x ∈ (mkPointVec pnts nmap eps).pnt_id_map,
      x < (mkPointVec pnts nmap eps).data_vec.length := by
  constructor
  · exact makePntsUnique_snd_length pnts eps
  · intro x hx
    obtain ⟨m, hm, hval⟩ := List.mem_iff_getElem.mp hx
    have hm2 : m < pnts.length := by
      have := hm
      rw [show (mkPointVec pnts nmap eps).pnt_id_map =
        (makePntsUnique pnts eps).2 from rfl,
        makePntsUnique_snd_length] at this
      exact this
    have hval2 : (makePntsUnique pnts eps).2.getD m 0 = x := by
      rw [getD_eq_getElem _ _ _ (by
        rw [makePntsUnique_snd_length]
        exact hm2)]
      exact hval
    rw [← hval2]
    exact makePntsUnique_snd_lt pnts eps hm2

/-- C4 amended: after construction and any sequence of inserts,
`pnt_id_map` has one entry per original point plus one per insert that is
not a named insert with an already-used name (those are rejected wholesale
and do not grow the remap), and every stored value is a valid index into
`data_vec`. -/
theorem claim_C4_amended (pnts : List Point) (nmap : List (String × ℕ))
    (eps : ℚ) (ops : List GeoOp) (hne : pnts ≠ []) :
    (applyOps (mkPointVec pnts nmap eps) ops).pnt_id_map.length =
      pnts.length + acceptedCount (mkPointVec pnts nmap eps) ops ∧
    ∀ x ∈ (applyOps (mkPointVec pnts nmap eps) ops).pnt_id_map,
      x < (applyOps (mkPointVec pnts nmap eps) ops).data_vec.length := by
  have hmk := mkPointVec_remap_valid pnts nmap eps
  have h := applyOps_spec ops (mkPointVec pnts nmap eps) hmk.2
  exact ⟨by rw [h.2, hmk.1], h.1⟩

/-- C4 amended witness: one accepted duplicate insert and one rejected
named insert. -/
theorem claim_C4_amended_witness :
    (([⟨0, 0, 0⟩] : List Point) ≠ []) ∧
    (applyOps (mkPointVec [⟨0, 0, 0⟩] [("A", 0)] (mkRat 1 100))
      [GeoOp.insertPnt ⟨0, 0, 0⟩,
       GeoOp.insertNamed ⟨3, 3, 3⟩ (some "A")]).pnt_id_map.length =
      1 + acceptedCount (mkPointVec [⟨0, 0, 0⟩] [("A", 0)] (mkRat 1 100))
        [GeoOp.insertPnt ⟨0, 0, 0⟩,
         GeoOp.insertNamed ⟨3, 3, 3⟩ (some "A")] :=
  ⟨by decide,
    (claim_C4_amended [⟨0, 0, 0⟩] [("A", 0)] (mkRat 1 100)
      [GeoOp.insertPnt ⟨0, 0, 0⟩,
       GeoOp.insertNamed ⟨3, 3, 3⟩ (some "A")] (by decide)).1⟩

/-! Claim C7 amended: the reconciled forward map holds valid canonical
ids, and matches the reverse index wherever no two names share an id. -/

theorem setGetD_self {α : Type} (l : List α) (i : ℕ) (v d : α)
    (h : i < l.length) : (l.set i v).getD i d = v := by
  rw [List.getD_eq_getElem?_getD, List.getElem?_set_self h]
  rfl

theorem setGetD_ne {α : Type} (l : List α) (i j : ℕ) (v d : α)
    (h : i ≠ j) : (l.set i v).getD j d = l.getD j d := by
  rw [List.getD_eq_getElem?_getD, List.getElem?_set_ne h,
    ← List.getD_eq_getElem?_getD]

theorem foldl_set_getD_out :
    ∀ (m : List (String × ℕ)) (init : List String) (i : ℕ),
      (∀ e ∈ m, e.2 ≠ i) →
      (m.foldl (fun acc e => acc.set e.2 e.1) init).getD i "" =
        init.getD i "" := by
  intro m
  induction m with
  | nil => intro init i _; rfl
  | cons e0 rest ih =>
      intro init i hne
      rw [List.foldl_cons]
      rw [ih (init.set e0.2 e0.1) i
        (fun e he => hne e (List.mem_cons_of_mem _ he))]
      exact setGetD_ne init e0.2 i e0.1 ""
        (hne e0 (List.mem_cons_self _ _))

theorem foldl_set_getD_mem :
    ∀ (m : List (String × ℕ)) (init : List String),
      List.Pairwise (fun a b : String × ℕ => a.2 ≠ b.2) m →
      (∀ e ∈ m, e.2 < init.length) →
      ∀ e ∈ m, (m.foldl (fun acc e => acc.set e.2 e.1) init).getD e.2 "" =
        e.1 := by
  intro m
  induction m with
  | nil => intro init _ _ e he; cases he
  | cons e0 rest ih =>
      intro init hpw hlen e he
      rw [List.foldl_cons]
      rcases List.mem_cons.mp he with rfl | he2
      · rw [foldl_set_getD_out rest (init.set e.2 e.1) e.2
          (fun e2 he2 => (List.rel_of_pairwise_cons hpw he2).symm)]
        exact setGetD_self init e.2 e.1 ""
          (hlen e (List.mem_cons_self _ _))
      · exact ih (init.set e0.2 e0.1) hpw.tail
          (fun e2 he3 => by
            rw [List.length_set]
            exact hlen e2 (List.mem_cons_of_mem _ he3)) e he2

theorem correctFold_val (idm : List ℕ) (idNames : List String) :
    ∀ (m : List (String × ℕ)) (acc : List (String × ℕ)),
      (∀ e ∈ m, e.2 < idm.length) →
      (∀ e2 ∈ acc, ∃ i, i < idm.length ∧ e2.2 = idm.getD i 0) →
      ∀ e2 ∈ m.foldl
        (fun acc e =>
          if idm.getD e.2 0 = e.2 then acc ++ [e]
          else if idm.getD (idm.getD e.2 0) 0 = idm.getD e.2 0 then
            if (idNames.getD (idm.getD e.2 0) "").length ≠ 0 then acc
            else acc ++ [(e.1, idm.getD e.2 0)]
          else acc ++ [(e.1, idm.getD e.2 0)]) acc,
      ∃ i, i < idm.length ∧ e2.2 = idm.getD i 0 := by
  intro m
  induction m with
  | nil => intro acc _ hacc e2 he2; exact hacc e2 he2
  | cons e rest ih =>
      intro acc hm hacc e2 he2
      rw [List.foldl_cons] at he2
      refine ih _ (fun e3 he3 => hm e3 (List.mem_cons_of_mem _ he3))
        ?_ e2 he2
      intro e3 he3
      have helt : e.2 < idm.length := hm e (List.mem_cons_self _ _)
      by_cases h1 : idm.getD e.2 0 = e.2
      · rw [if_pos h1] at he3
        rcases List.mem_append.mp he3 with he4 | he4
        · exact hacc e3 he4
        · rw [List.mem_singleton] at he4
          rw [he4]
          exact ⟨e.2, helt, h1.symm⟩
      · rw [if_neg h1] at he3
        by_cases h2 : idm.getD (idm.getD e.2 0) 0 = idm.getD e.2 0
        · rw [if_pos h2] at he3
          by_cases h3 : (idNames.getD (idm.getD e.2 0) "").length ≠ 0
          · rw [if_pos h3] at he3
            exact hacc e3 he3
          · rw [if_neg h3] at he3
            rcases List.mem_append.mp he3 with he4 | he4
            · exact hacc e3 he4
            · rw [List.mem_singleton] at he4
              rw [he4]
              exact ⟨e.2, helt, rfl⟩
        · rw [if_neg h2] at he3
          rcases List.mem_append.mp he3 with he4 | he4
          · exact hacc e3 he4
          · rw [List.mem_singleton] at he4
            rw [he4]
            exact ⟨e.2, helt, rfl⟩

/-- C7 amended: after construction with a valid name map, every surviving
forward entry holds a valid canonical id; and provided no two surviving
names share a canonical id (as in Scenario B, where the collapse target
already carries a name and the second name is erased), each surviving
name's reverse-index slot holds exactly that name.  Without that proviso
several names can share one id and only the iteration-last of them appears
in the reverse index (see the counterexample). -/
theorem claim_C7_amended (pnts : List Point) (nmap : List (String × ℕ))
    (eps : ℚ) (hvals : ∀ e ∈ nmap, e.2 < pnts.length)
    (hinj : List.Pairwise (fun a b : String × ℕ => a.2 ≠ b.2)
      (mkPointVec pnts nmap eps).name_id_map) :
    ∀ e ∈ (mkPointVec pnts nmap eps).name_id_map,
      e.2 < (mkPointVec pnts nmap eps).data_vec.length ∧
      (mkPointVec pnts nmap eps).id_to_name_map.getD e.2 "" = e.1 := by
  have hval : ∀ e ∈ (mkPointVec pnts nmap eps).name_id_map,
      e.2 < (mkPointVec pnts nmap eps).data_vec.length := by
    intro e he
    have he2 : e ∈ nmap.foldl
        (fun acc e =>
          if (makePntsUnique pnts eps).2.getD e.2 0 = e.2 then acc ++ [e]
          else if (makePntsUnique pnts eps).2.getD
              ((makePntsUnique pnts eps).2.getD e.2 0) 0 =
              (makePntsUnique pnts eps).2.getD e.2 0 then
            if ((buildIdNames nmap (makePntsUnique pnts eps).2.length).getD
                ((makePntsUnique pnts eps).2.getD e.2 0) "").length ≠ 0 then
              acc
            else acc ++ [(e.1, (makePntsUnique pnts eps).2.getD e.2 0)]
          else acc ++ [(e.1, (makePntsUnique pnts eps).2.getD e.2 0)]) [] :=
      he
    obtain ⟨i, hi, hei⟩ := correctFold_val (makePntsUnique pnts eps).2
      (buildIdNames nmap (makePntsUnique pnts eps).2.length) nmap []
      (fun e3 he3 => by
        rw [makePntsUnique_snd_length]
        exact hvals e3 he3)
      (fun e3 he3 => absurd he3 (List.not_mem_nil e3)) e he2
    rw [makePntsUnique_snd_length] at hi
    rw [hei]
    exact makePntsUnique_snd_lt pnts eps hi
  intro e he
  refine ⟨hval e he, ?_⟩
  have hlen2 : ∀ e2 ∈ (mkPointVec pnts nmap eps).name_id_map,
      e2.2 < (List.replicate (makePntsUnique pnts eps).1.length "").length := by
    intro e2 he2
    rw [List.length_replicate]
    exact hval e2 he2
  exact foldl_set_getD_mem (mkPointVec pnts nmap eps).name_id_map
    (List.replicate (makePntsUnique pnts eps).1.length "") hinj hlen2 e he

/-- C7 amended witness: Scenario B — two named points collapse, the
carried name `A` survives at id 0 and matches the reverse index. -/
theorem claim_C7_amended_witness :
    (∀ e ∈ ([("A", 0), ("B", 1)] : List (String × ℕ)), e.2 < 2) ∧
    List.Pairwise (fun a b : String × ℕ => a.2 ≠ b.2)
      scenBVec.name_id_map ∧
    ("A", 0) ∈ scenBVec.name_id_map ∧
    (0 : ℕ) < scenBVec.data_vec.length ∧
    scenBVec.id_to_name_map.getD 0 "" = "A" :=
  ⟨by decide, by decide, by decide,
    (claim_C7_amended [⟨0, 0, 0⟩, ⟨0, 0, mkRat 1 10000⟩]
      [("A", 0), ("B", 1)] (mkRat 1 100) (by decide) (by decide)
      ("A", 0) (by decide)).1,
    (claim_C7_amended [⟨0, 0, 0⟩, ⟨0, 0, mkRat 1 10000⟩]
      [("A", 0), ("B", 1)] (mkRat 1 100) (by decide) (by decide)
      ("A", 0) (by decide)).2⟩

/-! Claim C2: inserting a duplicate point through the unnamed
`push_back` leaves the canonical store unchanged, grows the remap by one
entry, and returns the id of an existing matching canonical point. -/

/-- C2 (confirmed): for every registry state and point with an existing
within-tolerance canonical match, `push_back` leaves `data_vec` unchanged,
appends exactly one entry to `pnt_id_map`, and the returned id is a valid
canonical id whose point is within tolerance of the input. -/
theorem claim_C2_push_back_duplicate (v : PointVec) (p : Point)
    (h : ∃ q ∈ v.data_vec, maxNormDist q p ≤ v.rel_eps) :
    (push_back v p).1.data_vec = v.data_vec ∧
    (push_back v p).1.pnt_id_map = v.pnt_id_map ++ [(push_back v p).2] ∧
    (push_back v p).2 < v.data_vec.length ∧
    maxNormDist (v.data_vec.getD (push_back v p).2 pz) p ≤ v.rel_eps := by
  obtain ⟨i, hi⟩ := @findIdx?_isSome_of_exists Point
    (fun q => decide (maxNormDist q p ≤ v.rel_eps)) v.data_vec
    (by obtain ⟨q, hq, hd⟩ := h; exact ⟨q, hq, by simpa using hd⟩)
  obtain ⟨hlt, hp⟩ := findIdx?_some_spec pz hi
  rw [push_back_found hi]
  exact ⟨rfl, rfl, hlt, by simpa using hp⟩

/-- C2 witness: a concrete duplicate insertion. -/
theorem claim_C2_witness :
    (∃ q ∈ cexOneVec.data_vec,
      maxNormDist q ⟨0, 0, mkRat 1 1000⟩ ≤ cexOneVec.rel_eps) ∧
    (push_back cexOneVec ⟨0, 0, mkRat 1 1000⟩).1.data_vec =
      cexOneVec.data_vec ∧
    (push_back cexOneVec ⟨0, 0, mkRat 1 1000⟩).2 <
      cexOneVec.data_vec.length :=
  ⟨by decide,
    (claim_C2_push_back_duplicate cexOneVec ⟨0, 0, mkRat 1 1000⟩ (by decide)).1,
    (claim_C2_push_back_duplicate cexOneVec ⟨0, 0, mkRat 1 1000⟩ (by decide)).2.2.1⟩

/-! Claim C1: counterexample to pairwise uniqueness. -/

/-- C1 counterexample: after construction of `cexBlocker` (tolerance
`1/100`), canonical points 0 and 2 are distinct yet within tolerance of
each other: the claimed pairwise-uniqueness invariant is false.  The two
close points are separated in the lexicographic sort by a far blocker, so
no adjacent pair is within tolerance and nothing is merged. -/
theorem claim_C1_counterexample :
    cexBlocker.data_vec.length = 3 ∧
    cexBlocker.data_vec.getD 0 pz ∈ cexBlocker.data_vec ∧
    cexBlocker.data_vec.getD 2 pz ∈ cexBlocker.data_vec ∧
    cexBlocker.data_vec.getD 0 pz ≠ cexBlocker.data_vec.getD 2 pz ∧
    maxNormDist (cexBlocker.data_vec.getD 0 pz)
      (cexBlocker.data_vec.getD 2 pz) ≤ cexBlocker.rel_eps := by
  decide

/-! Claim C3: counterexample to "the surviving representative is the
point with the lowest original insertion index". -/

/-- C3 counterexample: for input `[(0,0,0.0001), (0,0,0)]` (one
tolerance-equal group), the whole group is remapped to canonical id 0 (the
slot of original index 0), but the coordinate value that survives is
`(0,0,0)` — the point originally inserted at index 1 — because the reverse
permutation puts the lexicographically least run member into the
surviving slot. -/
theorem claim_C3_counterexample :
    cexPairVec.pnt_id_map = [0, 0] ∧
    cexPairVec.data_vec = [⟨0, 0, 0⟩] ∧
    maxNormDist ⟨0, 0, mkRat 1 10000⟩ ⟨0, 0, 0⟩ ≤ cexPairVec.rel_eps ∧
    (⟨0, 0, 0⟩ : Point) ≠ ⟨0, 0, mkRat 1 10000⟩ := by
  decide

/-! Claim C4: counterexample to "id_remap grows by one for every point
ever passed in". -/

/-- C4 counterexample: a named insert whose name is already in use is
rejected wholesale — the point `(3,3,3)` (not a duplicate!) is passed in
but `pnt_id_map` does not grow, so `id_remap.size()` falls behind the
number of points ever passed in. -/
theorem claim_C4_counterexample :
    (push_back_named cexNamedVec ⟨3, 3, 3⟩ (some "A")).pnt_id_map.length =
      cexNamedVec.pnt_id_map.length ∧
    cexNamedVec.pnt_id_map.length = 1 ∧
    (push_back_named cexNamedVec ⟨3, 3, 3⟩ (some "A")).data_vec =
      cexNamedVec.data_vec := by
  decide

/-! Claim C5: counterexample to `id_to_name.size() == canonical_points.size()`
at all times. -/

/-- C5 counterexample: inserting a duplicate of the single canonical point
appends an empty slot to `id_to_name_map` without growing `data_vec`, so
the two sizes differ after the call. -/
theorem claim_C5_counterexample :
    (push_back cexOneVec ⟨0, 0, 0⟩).1.id_to_name_map.length = 2 ∧
    (push_back cexOneVec ⟨0, 0, 0⟩).1.data_vec.length = 1 := by
  decide

/-- C5 amended: the size equality holds right after construction, and a
`push_back` call always grows `id_to_name_map` by one while it grows
`data_vec` only when no within-tolerance match exists — so the equality
persists only while every insert creates a new canonical point. -/
theorem claim_C5_amended (pnts : List Point) (nmap : List (String × ℕ))
    (eps : ℚ) (v : PointVec) (p : Point) :
    (mkPointVec pnts nmap eps).id_to_name_map.length =
      (mkPointVec pnts nmap eps).data_vec.length ∧
    (push_back v p).1.id_to_name_map.length =
      v.id_to_name_map.length + 1 ∧
    ((v.data_vec.findIdx?
        (fun q => decide (maxNormDist q p ≤ v.rel_eps))).isSome →
      (push_back v p).1.data_vec.length = v.data_vec.length) := by
  refine ⟨?_, ?_, ?_⟩
  · show (buildIdToName _ _).length = _
    simpa [buildIdToName] using
      length_foldl_set (correctNameIDMapping (makePntsUnique pnts eps).2 nmap)
        Prod.fst (List.replicate (makePntsUnique pnts eps).1.length "")
  · cases h : v.data_vec.findIdx? (fun q => decide (maxNormDist q p ≤ v.rel_eps)) with
    | some i => rw [push_back_found h]; simp
    | none => rw [push_back_new h]; simp
  · intro hs
    obtain ⟨i, hi⟩ := Option.isSome_iff_exists.mp hs
    rw [push_back_found hi]

/-- C5 amended witness: the construction equality and the duplicate case
at a concrete registry. -/
theorem claim_C5_amended_witness :
    ((cexOneVec.data_vec.findIdx?
        (fun q => decide (maxNormDist q ⟨0, 0, 0⟩ ≤ cexOneVec.rel_eps))).isSome) ∧
    (mkPointVec [⟨0, 0, 0⟩] [] (mkRat 1 100)).id_to_name_map.length =
      (mkPointVec [⟨0, 0, 0⟩] [] (mkRat 1 100)).data_vec.length ∧
    (push_back cexOneVec ⟨0, 0, 0⟩).1.data_vec.length =
      cexOneVec.data_vec.length :=
  ⟨by decide,
    (claim_C5_amended [⟨0, 0, 0⟩] [] (mkRat 1 100) cexOneVec ⟨0, 0, 0⟩).1,
    (claim_C5_amended [⟨0, 0, 0⟩] [] (mkRat 1 100) cexOneVec ⟨0, 0, 0⟩).2.2
      (by decide)⟩

/-! Claim C6: counterexample and amended behavior of named duplicate
insertion. -/

/-- C6 counterexample: inserting a point identical to the existing named
canonical point (`"A" -> 0`) under the fresh name `"B"` is NOT rejected:
the name `"B"` is recorded mapping to the existing id 0, and no warning is
emitted. -/
theorem claim_C6_counterexample :
    ("A", 0) ∈ cexNamedVec.name_id_map ∧
    (cexNamedVec.name_id_map.find? (fun e => e.1 == "B")).isSome = false ∧
    maxNormDist (cexNamedVec.data_vec.getD 0 pz) ⟨0, 0, 0⟩ ≤
      cexNamedVec.rel_eps ∧
    ("B", 0) ∈ (push_back_named cexNamedVec ⟨0, 0, 0⟩ (some "B")).name_id_map ∧
    (push_back_named cexNamedVec ⟨0, 0, 0⟩ (some "B")).warns =
      cexNamedVec.warns := by
  decide

/-- C6 amended: a named insert is rejected (with a warning, and without
touching the point store or the remap) exactly when the supplied name is
already in use; when the name is unused and the point matches an existing
canonical point, the new name IS recorded, mapped to the existing id, with
no warning — even if the matched point already carries a different name. -/
theorem claim_C6_amended (v : PointVec) (p : Point) (nm : String) (i : ℕ)
    (hnm : (v.name_id_map.find? (fun e => e.1 == nm)).isSome = false)
    (hmatch : v.data_vec.findIdx?
      (fun q => decide (maxNormDist q p ≤ v.rel_eps)) = some i) :
    (push_back_named v p (some nm)).name_id_map =
      insertName v.name_id_map nm i ∧
    (nm, i) ∈ (push_back_named v p (some nm)).name_id_map ∧
    (push_back_named v p (some nm)).data_vec = v.data_vec ∧
    (push_back_named v p (some nm)).warns = v.warns ∧
    ∀ w : PointVec, (w.name_id_map.find? (fun e => e.1 == nm)).isSome →
      (push_back_named w p (some nm)).name_id_map = w.name_id_map ∧
      (push_back_named w p (some nm)).data_vec = w.data_vec ∧
      (push_back_named w p (some nm)).pnt_id_map = w.pnt_id_map ∧
      (push_back_named w p (some nm)).warns = w.warns + 1 := by
  have hreject : ∀ w : PointVec,
      (w.name_id_map.find? (fun e => e.1 == nm)).isSome →
      push_back_named w p (some nm) =
        { w with
            id_to_name_map := w.id_to_name_map ++ [""]
            warns := w.warns + 1 } := by
    intro w hw
    simp [push_back_named, hw]
  have hmain : push_back_named v p (some nm) =
      { v with
          pnt_id_map := v.pnt_id_map ++ [i]
          name_id_map := insertName v.name_id_map nm i
          id_to_name_map := v.id_to_name_map ++ [nm] } := by
    simp [push_back_named, hnm, uniqueInsert, hmatch]
  refine ⟨by rw [hmain], ?_, by rw [hmain], by rw [hmain], ?_⟩
  · rw [hmain]
    exact mem_insertName v.name_id_map nm i
  · intro w hw
    rw [hreject w hw]
    exact ⟨rfl, rfl, rfl, rfl⟩

/-- C6 amended witness: the concrete scenario-D-style insertion. -/
theorem claim_C6_amended_witness :
    ((cexNamedVec.name_id_map.find? (fun e => e.1 == "B")).isSome = false) ∧
    (cexNamedVec.data_vec.findIdx?
      (fun q => decide (maxNormDist q ⟨0, 0, 0⟩ ≤ cexNamedVec.rel_eps)) =
        some 0) ∧
    ("B", 0) ∈ (push_back_named cexNamedVec ⟨0, 0, 0⟩ (some "B")).name_id_map ∧
    (push_back_named cexNamedVec ⟨0, 0, 0⟩ (some "B")).warns =
      cexNamedVec.warns :=
  ⟨by decide, by decide,
    (claim_C6_amended cexNamedVec ⟨0, 0, 0⟩ "B" 0 (by decide) (by decide)).2.1,
    (claim_C6_amended cexNamedVec ⟨0, 0, 0⟩ "B" 0 (by decide) (by decide)).2.2.2.1⟩

/-! Claim C7: counterexample to the name/reverse-index bijection. -/

/-- C7 counterexample: in `cexChainVec` the originals at indices 1 and 2
(named `"A"` and `"B"`) both collapse onto the unnamed original 0; the
reconciliation transfers BOTH names to canonical id 0 (the `id_names` side
table is never refreshed), and the reverse index keeps only the
iteration-last name `"B"`, so the forward entry `("A", 0)` does not match
its reverse-index slot, and two names survive for one id. -/
theorem claim_C7_counterexample :
    ("A", 0) ∈ cexChainVec.name_id_map ∧
    ("B", 0) ∈ cexChainVec.name_id_map ∧
    cexChainVec.id_to_name_map.getD 0 "" = "B" ∧
    ("A" : String) ≠ "B" ∧
    cexChainVec.data_vec.length = 1 := by
  decide

/-! Claim C8: scenario A, confirmed. -/

/-- C8 (confirmed): constructing from `[(0,0,0), (0,0,0.0001), (5,5,5)]`
with absolute tolerance `1/100` yields exactly 2 canonical points and
`id_remap = [0, 0, 1]`. -/
theorem claim_C8_scenarioA :
    scenAVec.data_vec.length = 2 ∧ scenAVec.pnt_id_map = [0, 0, 1] := by
  decide

/-! Claim C9: the bounding box is built from the raw input, not from the
canonical set. -/

/-- C9 counterexample: after constructing from two tolerance-equal points
the canonical set is `[(0,0,0)]`, yet the box's max corner keeps
`z = 0.0001` from the removed duplicate: the box does not equal the
canonical set's extremes. -/
theorem claim_C9_counterexample :
    cexDupVec.data_vec = [⟨0, 0, 0⟩] ∧
    cexDupVec.aabb.maxP.z = mkRat 1 10000 ∧
    cexDupVec.aabb ≠ aabbOf cexDupVec.data_vec := by
  decide

/-- C9 amended: the box held immediately after construction is exactly the
box of the raw input sequence (computed before deduplication, never
recomputed), and it contains every raw input point, including removed
duplicates. -/
theorem claim_C9_amended (pnts : List Point) (nmap : List (String × ℕ))
    (eps : ℚ) :
    (mkPointVec pnts nmap eps).aabb = aabbOf pnts ∧
    ∀ p ∈ pnts, inAABB ((mkPointVec pnts nmap eps).aabb) p := by
  refine ⟨rfl, fun p hp => ?_⟩
  exact inAABB_aabbOf hp

/-! Claim C10: the scan loops are not safe on an empty input. -/

/-- C10 (code bug): the scan loops run `k` up to `n_pnts_in_file - 1`
computed in `size_t`; for an empty input this underflows to `2^64 - 1`, so
the loop body executes and reads positions 0 and 1 of the empty point
vector, out of bounds — not the zero iterations the claim states.  (The
truncated-subtraction list model, by contrast, returns the empty result
the claim expects.) -/
theorem claim_C10_empty_scan_bug :
    scanPairBound 0 = 2 ^ 64 - 1 ∧
    0 < scanPairBound 0 ∧
    ¬ (0 + 1 < ([] : List Point).length) ∧
    makePntsUnique [] 0 = ([], []) := by
  refine ⟨by decide, by decide, by decide, ?_⟩
  rfl

end OGS
